import Mathlib

/-!
Shallow embedding of the Enigma machine simulator and its cryptanalysis
engine (src/enigma.rs, src/analysis.rs, src/analysis/fitness.rs), together
with proofs settling the specification claims.

Machine characters are modelled as `Nat` ASCII codes; letter indices are
`Nat` values in `[0, 26)`.  `u8` arithmetic that can wrap is modelled
explicitly modulo 256; `u32` arithmetic modulo `2^32`.  Fallible
construction (Rust panics) is modelled with `Option`.
-/

/-- Array indexing `l[i]` on a 26-entry table, defaulting to 0 out of range
(all uses are proved in range). -/
def nth (l : List Nat) (i : Nat) : Nat := l.getD i 0

/-- Rust `char::is_ascii_uppercase`. -/
def isUpper (c : Nat) : Bool := 65 ≤ c && c ≤ 90

/-- Rust `u8::overflowing_sub`: wrapped difference and borrow flag. -/
def overflowingSub (a b : Nat) : Nat × Bool :=
  if a < b then (a + 256 - b, true) else (a - b, false)

/-- The rotor identifiers of `enigma.rs`. -/
inductive RotorId
  | I | II | III | IV | V | VI | VII | VIII | Identity
  deriving DecidableEq, Repr, Fintype

/-- The wiring strings from `RotorId::chars`. -/
def RotorId.chars : RotorId → String
  | .I => "EKMFLGDQVZNTOWYHXUSPAIBRCJ"
  | .II => "AJDKSIRUXBLHWTMCQGZNPYFVOE"
  | .III => "BDFHJLCPRTXVZNYEIWGAKMUSQO"
  | .IV => "ESOVPZJAYQUIRHXLNFTGKDCMWB"
  | .V => "VZBRGITYUPSDNHLXAWMJQOFECK"
  | .VI => "JPGVOUMFYQBENHZRDKASXLICTW"
  | .VII => "NZJHGRCXMYSWBOUFAIVLPEKQDT"
  | .VIII => "FKQHTLXOCBJSPDZRAMEWNIUYGV"
  | .Identity => "ABCDEFGHIJKLMNOPQRSTUVWXYZ"

/-- `RotorId::gen_forward_wiring`: each wiring letter minus `b'A'`. -/
def RotorId.forwardWiring (s : RotorId) : List Nat :=
  s.chars.toList.map (fun c => c.toNat - 65)

/-- `RotorId::gen_backward_wiring`: scatter the inverse permutation,
`backwards[forward[i]] = i` for `i` in `0..26`. -/
def RotorId.backwardWiring (s : RotorId) : List Nat :=
  (List.range 26).foldl (fun acc i => acc.set (nth s.forwardWiring i) i)
    (List.replicate 26 0)

/-- `RotorId::is_at_notch`. -/
def RotorId.isAtNotch : RotorId → Nat → Bool
  | .I, position => position == 16
  | .II, position => position == 4
  | .III, position => position == 21
  | .IV, position => position == 9
  | .V, position => position == 25
  | .VI, position => position == 12 || position == 25
  | .VII, position => position == 12 || position == 25
  | .VIII, position => position == 12 || position == 25
  | .Identity, position => position == 0

/-- The reflector identifiers of `enigma.rs`. -/
inductive ReflectorId
  | B | C | Default
  deriving DecidableEq, Repr, Fintype

/-- The reflector wiring strings from `ReflectorId::gen_wiring`. -/
def ReflectorId.chars : ReflectorId → String
  | .B => "YRUHQSLDPXNGOKMIEBFZCWVJAT"
  | .C => "FVPJIAOYEDRZXWGCTKUQSBNMHL"
  | .Default => "ZYXWVUTSRQPONMLKJIHGFEDCBA"

/-- `ReflectorId::gen_wiring`: each wiring letter minus `b'A'`. -/
def ReflectorId.wiring (s : ReflectorId) : List Nat :=
  s.chars.toList.map (fun c => c.toNat - 65)

/-- `ReflectorId::forward`. -/
def ReflectorId.forward (s : ReflectorId) (c : Nat) : Nat := nth s.wiring c

/-- `Rotor`: id, position and ring setting (`Rotor::new` asserts both in
`0..26`; the bounds are hypotheses of the theorems below). -/
structure Rotor where
  id : RotorId
  rotorPosition : Nat
  ringSetting : Nat
  deriving DecidableEq, Repr

/-- `Rotor::turnover`: increment, wrapping by the `v @ 0..=25 / v - 26`
branch of the source. -/
def Rotor.turnover (r : Rotor) : Rotor :=
  { r with rotorPosition :=
      if r.rotorPosition + 1 ≤ 25 then r.rotorPosition + 1
      else r.rotorPosition + 1 - 26 }

/-- `Rotor::is_at_notch`. -/
def Rotor.isAtNotch (r : Rotor) : Bool := r.id.isAtNotch r.rotorPosition

/-- `Rotor::encypher`, the branch-based hot function, with `u8` arithmetic
modelled modulo 256 (release-build wrap-around semantics). -/
def Rotor.encypher (c pos ring : Nat) (mapping : List Nat) : Nat :=
  let s := overflowingSub pos ring
  let shift := if s.2 then (s.1 + 26) % 256 else s.1
  let sum := (c + shift) % 256
  let idx := if sum ≤ 25 then sum else sum - 26
  let val := nth mapping idx
  let r := overflowingSub val shift
  if r.2 then (r.1 + 26) % 256 else r.1

/-- `Rotor::forward`. -/
def Rotor.forward (r : Rotor) (c : Nat) : Nat :=
  Rotor.encypher c r.rotorPosition r.ringSetting r.id.forwardWiring

/-- `Rotor.backward`. -/
def Rotor.backward (r : Rotor) (c : Nat) : Nat :=
  Rotor.encypher c r.rotorPosition r.ringSetting r.id.backwardWiring

/-- `Plugboard::identity` as a mapping on letter indices. -/
def Plugboard.identity : Nat → Nat := fun i => i

/-- Loop of `Plugboard::decode_plugboard`, threading the `seen` array and
the mapping: check the pair's characters, check for duplicate plugs
against `seen`, record the connection.  A Rust panic is modelled as
`none`. -/
def Plugboard.decodeGo (seen : Nat → Bool) (mapping : Nat → Nat) :
    List (Nat × Nat) → Option ((Nat → Bool) × (Nat → Nat))
  | [] => some (seen, mapping)
  | (rc1, rc2) :: rest =>
    if isUpper rc1 && isUpper rc2 then
      let c1 := rc1 - 65
      let c2 := rc2 - 65
      if seen c1 || seen c2 then none
      else
        Plugboard.decodeGo
          (Function.update (Function.update seen c1 true) c2 true)
          (Function.update (Function.update mapping c1 c2) c2 c1) rest
    else none

/-- `Plugboard::decode_plugboard`. -/
def Plugboard.decode (connections : List (Nat × Nat)) : Option (Nat → Nat) :=
  if connections = [] then some Plugboard.identity
  else
    (Plugboard.decodeGo (fun _ => false) Plugboard.identity connections).map
      (fun st => st.2)

/-- `Plugboard::new`; the panic case never arises in the verified call
sites, where `Plugboard.decode` is proved to succeed. -/
def Plugboard.new (connections : List (Nat × Nat)) : Nat → Nat :=
  (Plugboard.decode connections).getD Plugboard.identity

/-- `Plugboard::unplugged`: true exactly on self-mapped letters. -/
def Plugboard.unplugged (w : Nat → Nat) (i : Nat) : Bool := w i == i

/-- `Plugboard::generate_connections`: walk the wiring in index order,
emitting each connected pair once as ASCII characters. -/
def Plugboard.generateConnections (w : Nat → Nat) : List (Nat × Nat) :=
  ((List.range 26).foldl
    (fun (st : (Nat → Bool) × List (Nat × Nat)) idx =>
      if w idx == idx || st.1 idx then st
      else
        (Function.update (Function.update st.1 idx true) (w idx) true,
         st.2 ++ [(idx + 65, w idx + 65)]))
    (fun _ => false, [])).2

/-- `EnigmaKey`. -/
structure EnigmaKey where
  leftRotor : Rotor
  middleRotor : Rotor
  rightRotor : Rotor
  plugboard : Nat → Nat

/-- `EnigmaKey::set_plugboard`. -/
def EnigmaKey.setPlugboard (k : EnigmaKey) (p : Nat → Nat) : EnigmaKey :=
  { k with plugboard := p }

/-- `Enigma`: machine state built by `Enigma::new` from a key and a
reflector choice. -/
structure Enigma where
  leftRotor : Rotor
  middleRotor : Rotor
  rightRotor : Rotor
  reflector : ReflectorId
  plugboard : Nat → Nat

/-- `Enigma::new`. -/
def Enigma.new (key : EnigmaKey) (reflector : ReflectorId) : Enigma :=
  { leftRotor := key.leftRotor
    middleRotor := key.middleRotor
    rightRotor := key.rightRotor
    reflector := reflector
    plugboard := key.plugboard }

/-- `Enigma::rotate`: the stepping state machine run before each
substitution. -/
def Enigma.rotate (e : Enigma) : Enigma :=
  let e :=
    if e.middleRotor.isAtNotch then
      { e with middleRotor := e.middleRotor.turnover
               leftRotor := e.leftRotor.turnover }
    else if e.rightRotor.isAtNotch then
      { e with middleRotor := e.middleRotor.turnover }
    else e
  { e with rightRotor := e.rightRotor.turnover }

/-- Substitution chain of `Enigma::encrypt` after the rotation: plugboard
in, right-to-left through the rotors, reflector, left-to-right back, and
plugboard out. -/
def Enigma.subst (e : Enigma) (c0 : Nat) : Nat :=
  let c1 := e.plugboard c0
  let c2 := e.rightRotor.forward c1
  let c3 := e.middleRotor.forward c2
  let c4 := e.leftRotor.forward c3
  let c5 := e.reflector.forward c4
  let c6 := e.leftRotor.backward c5
  let c7 := e.middleRotor.backward c6
  let c8 := e.rightRotor.backward c7
  e.plugboard c8

/-- `Enigma::encrypt` on one ASCII code: rotate, then push the letter
through the substitution chain.  Returns the updated machine and the
output code. -/
def Enigma.encrypt (e : Enigma) (cin : Nat) : Enigma × Nat :=
  let c0 := cin - 65
  let e := e.rotate
  (e, e.subst c0 + 65)

/-- Encryption of a whole message, threading the machine state, as the
callers do with `cipher.chars().map(|c| e.encrypt(c))`. -/
def Enigma.encryptList (e : Enigma) : List Nat → List Nat
  | [] => []
  | c :: rest =>
    let (e', c') := e.encrypt c
    c' :: e'.encryptList rest

/-! ## Fitness functions (`analysis/fitness.rs`)

Scores are `f32` in the source; they are modelled as exact rationals.
The floor constant `EPSILON.log10()` is irrational, so the n-gram table
is parametrised by the floor value. -/

/-- The `ArrWindows` iterator: sliding windows of `N` consecutive
elements; a text shorter than `N` yields no window. -/
def arrWindows (N : Nat) : List Nat → List (List Nat)
  | [] => []
  | c :: rest =>
    if (c :: rest).length < N then []
    else (c :: rest).take N :: arrWindows N rest

/-- `NgramFitness::index`: each letter is shifted five bits per position,
last letter least significant (`(0..).map(|i| i * 5).zip(v.iter().rev())`). -/
def NgramFitness.index (v : List Nat) : Nat :=
  ((((List.range v.length).map (fun i => i * 5)).zip v.reverse).map
    (fun sv => (sv.2 - 65) * 2 ^ sv.1)).sum

/-- `NgramFitness::new` on already-split `(key, value)` lines: a table of
`index([Z; N]) + 1` entries filled with the floor value, overwritten at
each key's index; a malformed key (wrong length or a non-uppercase
character) is a panic, modelled as `none`. -/
def NgramFitness.new (N : Nat) (floor : Rat) (ngrams : List (List Nat × Rat)) :
    Option (List Rat) :=
  let numNgrams := NgramFitness.index (List.replicate N 90) + 1
  ngrams.foldlM
    (fun store kv =>
      if kv.1.all isUpper && kv.1.length == N then
        some (store.set (NgramFitness.index kv.1) kv.2)
      else none)
    (List.replicate numNgrams floor)

/-- `NgramFitness::score` (the uppercase input check can only panic, it
does not affect the value on valid input): sum of the table entries of
every sliding window. -/
def NgramFitness.score (N : Nat) (store : List Rat) (text : List Nat) : Rat :=
  ((arrWindows N text).map (fun w => store.getD (NgramFitness.index w) 0)).sum

/-- Rust `u32` wrapping subtraction (release-build semantics), for
arguments below `2^32`. -/
def u32sub (a b : Nat) : Nat := (a + 2 ^ 32 - b) % 2 ^ 32

/-- Rust `u32` wrapping multiplication. -/
def u32mul (a b : Nat) : Nat := a * b % 2 ^ 32

/-- Rust `u32` wrapping addition. -/
def u32add (a b : Nat) : Nat := (a + b) % 2 ^ 32

/-- The letter histogram of `IoCFitness::score`: 26 `u32` counters. -/
def IoCFitness.histogram (text : List Nat) : Nat → Nat :=
  text.foldl (fun h c => Function.update h (c - 65) (u32add (h (c - 65)) 1))
    (fun _ => 0)

/-- The `u32` accumulation `histogram.iter().map(|&v| v * (v - 1)).sum()`
of `IoCFitness::score`. -/
def IoCFitness.total (text : List Nat) : Nat :=
  ((List.range 26).map
    (fun i => u32mul (IoCFitness.histogram text i)
      (u32sub (IoCFitness.histogram text i) 1))).foldl u32add 0

/-- `IoCFitness::score`: the accumulated total over `n * (n - 1)`. -/
def IoCFitness.score (text : List Nat) : Rat :=
  (IoCFitness.total text : Rat) /
    ((text.length : Rat) * ((text.length : Rat) - 1))

/-! ## Stage C of the cryptanalysis engine (`analysis.rs`) -/

/-- Decryption of a ciphertext with a fresh machine, as every search stage
does; Stage C fixes the reflector to `B`. -/
def decryptWith (key : EnigmaKey) (cipher : List Nat) : List Nat :=
  (Enigma.new key ReflectorId.B).encryptList cipher

/-- A fitness function: `f32` scores modelled as rationals. -/
def FitnessFn : Type := List Nat → Rat

/-- The sentinel `-1e30` used to initialise every best-score search. -/
def sentinel : Rat := -(10 ^ 30)

/-- Candidate pairs of `find_plug`: `i < j`, both currently unplugged,
in the nested iteration order of the source. -/
def findPlugCandidates (w : Nat → Nat) : List (Nat × Nat) :=
  let ups := (List.range 26).filter (fun i => Plugboard.unplugged w i)
  ups.flatMap (fun i => (ups.filter (fun j => i < j)).map (fun j => (i + 65, j + 65)))

/-- `find_plug`: try each candidate pair on top of the present
connections, score the decryption, and keep the strictly best, starting
from `(-1e30, ('A', 'A'))`. -/
def findPlug (key : EnigmaKey) (cipher : List Nat) (f : FitnessFn) :
    Rat × (Nat × Nat) :=
  let plugs := Plugboard.generateConnections key.plugboard
  (findPlugCandidates key.plugboard).foldl
    (fun best p =>
      let key' := key.setPlugboard (Plugboard.new (plugs ++ [p]))
      let fitness := f (decryptWith key' cipher)
      if best.1 < fitness then (fitness, p) else best)
    (sentinel, (65, 65))

/-- The loop of `find_plugs`: per iteration, rebuild the test key from the
committed plugs, pick the best extra plug, append it, and either stop
(strictly worse than `max_fitness`) or commit. -/
def findPlugsGo (cipher : List Nat) (f : FitnessFn) :
    Nat → EnigmaKey → List (Nat × Nat) → Rat → EnigmaKey → EnigmaKey
  | 0, _, _, _, bestKey => bestKey
  | n + 1, key, plugs, maxFitness, bestKey =>
    let key := key.setPlugboard (Plugboard.new plugs)
    let fp := findPlug key cipher f
    let plugs := plugs ++ [fp.2]
    if fp.1 < maxFitness then bestKey
    else
      findPlugsGo cipher f n key plugs fp.1
        (bestKey.setPlugboard (Plugboard.new plugs))

/-- `find_plugs`: run the loop from an empty committed set, then rescore
the returned key. -/
def findPlugs (cipher : List Nat) (key : EnigmaKey) (maxPlugs : Nat)
    (f : FitnessFn) : EnigmaKey × Rat :=
  let bestKey := findPlugsGo cipher f maxPlugs key [] sentinel key
  (bestKey, f (decryptWith bestKey cipher))

/-- Modelled from the claim wording (spec-side reference for the Stage C
stop rule): the committed set starts empty, each iteration selects the
best additional pair, and stops without committing when that best score
is strictly worse than the score achieved by the previously committed
set; the returned plugboard is exactly the last committed set. -/
def findPlugsClaimGo (cipher : List Nat) (f : FitnessFn) :
    Nat → EnigmaKey → List (Nat × Nat) → EnigmaKey
  | 0, key, committed => key.setPlugboard (Plugboard.new committed)
  | n + 1, key, committed =>
    let cur := key.setPlugboard (Plugboard.new committed)
    let fp := findPlug cur cipher f
    if fp.1 < f (decryptWith cur cipher) then cur
    else findPlugsClaimGo cipher f n key (committed ++ [fp.2])

/-- Modelled from the claim wording: `find_plugs` as the claim describes
it, plus the recomputed final score. -/
def findPlugsClaim (cipher : List Nat) (key : EnigmaKey) (maxPlugs : Nat)
    (f : FitnessFn) : EnigmaKey × Rat :=
  let bestKey := findPlugsClaimGo cipher f maxPlugs key []
  (bestKey, f (decryptWith bestKey cipher))

/-- The amended Stage C reference: as the claim describes, except that the
first iteration's reference score is the `-1e30` sentinel rather than the
empty committed set's own score, and `max_plugs = 0` returns the input
key unchanged. -/
def findPlugsAmendedGo (cipher : List Nat) (f : FitnessFn) :
    Nat → EnigmaKey → List (Nat × Nat) → EnigmaKey
  | 0, key, committed => key.setPlugboard (Plugboard.new committed)
  | n + 1, key, committed =>
    let cur := key.setPlugboard (Plugboard.new committed)
    let fp := findPlug cur cipher f
    let reference := if committed.isEmpty then sentinel
      else f (decryptWith cur cipher)
    if fp.1 < reference then cur
    else findPlugsAmendedGo cipher f n key (committed ++ [fp.2])

/-- The amended `find_plugs` reference. -/
def findPlugsAmended (cipher : List Nat) (key : EnigmaKey) (maxPlugs : Nat)
    (f : FitnessFn) : EnigmaKey × Rat :=
  let bestKey :=
    if maxPlugs = 0 then key else findPlugsAmendedGo cipher f maxPlugs key []
  (bestKey, f (decryptWith bestKey cipher))

/-! ## Reference definitions used by the claims -/

/-- Modelled from the spec: the modulo reference form of `Rotor::encypher`
quoted in the source's comment: `shift = (pos - ring) mod 26;
idx = (c + shift) mod 26; result = (mapping[idx] - shift) mod 26`. -/
def Rotor.encypherRef (c pos ring : Nat) (mapping : List Nat) : Int :=
  let shift : Int := ((pos : Int) - ring) % 26
  let idx : Int := ((c : Int) + shift) % 26
  ((nth mapping idx.toNat : Int) - shift) % 26

/-- The claim's side condition for `Rotor::encypher`: none of the
unchecked `u8` operations (`x + 26` after a borrowing subtraction,
`c + shift`, and the final `x + 26`) leaves the `u8` range, i.e. the
wrap-around modelled by `% 256` never actually fires. -/
def Rotor.encypherUncheckedInRange (c pos ring : Nat) (mapping : List Nat) :
    Prop :=
  let s := overflowingSub pos ring
  (s.2 = true → s.1 + 26 ≤ 255) ∧
  (let shift := if s.2 then (s.1 + 26) % 256 else s.1
   c + shift ≤ 255 ∧
   (let sum := (c + shift) % 256
    let idx := if sum ≤ 25 then sum else sum - 26
    let r := overflowingSub (nth mapping idx) shift
    r.2 = true → r.1 + 26 ≤ 255))

instance (c pos ring : Nat) (mapping : List Nat) :
    Decidable (Rotor.encypherUncheckedInRange c pos ring mapping) := by
  unfold Rotor.encypherUncheckedInRange
  infer_instance

/-- Validity invariant of a machine state: rotor positions and ring
settings in `[0, 26)`, and a plugboard that is a bounded involution on
the letter indices (guaranteed by `Plugboard::new` in the source, where
the wiring field is private). -/
def Enigma.Valid (e : Enigma) : Prop :=
  e.leftRotor.rotorPosition < 26 ∧ e.leftRotor.ringSetting < 26 ∧
  e.middleRotor.rotorPosition < 26 ∧ e.middleRotor.ringSetting < 26 ∧
  e.rightRotor.rotorPosition < 26 ∧ e.rightRotor.ringSetting < 26 ∧
  (∀ i : Fin 26, e.plugboard i.val < 26) ∧
  (∀ i : Fin 26, e.plugboard (e.plugboard i.val) = i.val)

instance (e : Enigma) : Decidable e.Valid := by
  unfold Enigma.Valid
  infer_instance

/-- Validity of the rotor fields of a key, as asserted by `Rotor::new`. -/
def EnigmaKey.RotorsValid (k : EnigmaKey) : Prop :=
  k.leftRotor.rotorPosition < 26 ∧ k.leftRotor.ringSetting < 26 ∧
  k.middleRotor.rotorPosition < 26 ∧ k.middleRotor.ringSetting < 26 ∧
  k.rightRotor.rotorPosition < 26 ∧ k.rightRotor.ringSetting < 26

instance (k : EnigmaKey) : Decidable k.RotorsValid := by
  unfold EnigmaKey.RotorsValid
  infer_instance

/-- A plugboard wiring that is a bounded involution on the letters and the
identity elsewhere (every wiring built by `Plugboard::decode_plugboard`
satisfies this). -/
def PlugboardGood (w : Nat → Nat) : Prop :=
  (∀ i : Fin 26, w i.val < 26) ∧ (∀ i : Fin 26, w (w i.val) = i.val) ∧
  (∀ i, 26 ≤ i → w i = i)

/-- A plugboard pair is valid when both characters are uppercase ASCII. -/
def PairValid (p : Nat × Nat) : Prop := isUpper p.1 = true ∧ isUpper p.2 = true

instance (p : Nat × Nat) : Decidable (PairValid p) := by
  unfold PairValid
  infer_instance

/-- Two plugboard pairs sharing no character. -/
def PairDisjoint (p q : Nat × Nat) : Prop :=
  p.1 ≠ q.1 ∧ p.1 ≠ q.2 ∧ p.2 ≠ q.1 ∧ p.2 ≠ q.2

instance (p q : Nat × Nat) : Decidable (PairDisjoint p q) := by
  unfold PairDisjoint
  infer_instance

/-- The mapping updates of `Plugboard::decode_plugboard` without the
bookkeeping: apply `mapping[c1] = c2; mapping[c2] = c1` for each pair. -/
def applyPairs (mapping : Nat → Nat) : List (Nat × Nat) → Nat → Nat
  | [] => mapping
  | p :: rest =>
    applyPairs
      (Function.update (Function.update mapping (p.1 - 65) (p.2 - 65))
        (p.2 - 65) (p.1 - 65)) rest

/-- The `seen` array after recording the letters of a pair list. -/
def seenOf (pairs : List (Nat × Nat)) : Nat → Bool := fun i =>
  pairs.any (fun p => p.1 - 65 == i || p.2 - 65 == i)

/-- The number of occurrences of letter index `i` in a text (the
mathematical letter count). -/
def letterCount (text : List Nat) (i : Nat) : Nat :=
  (text.map (fun c => c - 65)).count i

/-- Modelled from the claim wording: the base-26 encoding of a window,
first letter most significant. -/
def base26Index (v : List Nat) : Nat :=
  v.foldl (fun acc c => acc * 26 + (c - 65)) 0

/-- The positional base-32 value actually computed by the 5-bit shifts of
`NgramFitness::index`, first letter most significant. -/
def base32Index (v : List Nat) : Nat :=
  v.foldl (fun acc c => acc * 32 + (c - 65)) 0

/-- The value the n-gram table associates to a window: the value of the
last source line whose key packs to the same index, the floor value for
indices never set. -/
def ngramLookup (floor : Rat) (entries : List (List Nat × Rat))
    (w : List Nat) : Rat :=
  match entries.reverse.find?
      (fun kv => NgramFitness.index kv.1 == NgramFitness.index w) with
  | some kv => kv.2
  | none => floor

/-- The concrete table of the base-26 counterexample: 826 floor entries
with index 32 (the packing of "BA") set. -/
def ngramCexStore : List Rat := (List.replicate 826 (0 : Rat)).set 32 (-1)

/-- A plug pair as Stage C commits them: uppercase characters in strictly
increasing order. -/
def StrictPair (p : Nat × Nat) : Prop := 65 ≤ p.1 ∧ p.1 < p.2 ∧ p.2 ≤ 90

instance (p : Nat × Nat) : Decidable (StrictPair p) := by
  unfold StrictPair
  infer_instance

/-- Invariant of the committed plug list of `find_plugs`: strict valid
pairs, mutually letter-disjoint. -/
def CommittedOK (l : List (Nat × Nat)) : Prop :=
  (∀ p ∈ l, StrictPair p) ∧ l.Pairwise PairDisjoint

/-- A concrete key for the Stage C counterexample: identity rotors and an
A-B plug. -/
def cexKey : EnigmaKey :=
  ⟨⟨.Identity, 0, 0⟩, ⟨.Identity, 0, 0⟩, ⟨.Identity, 0, 0⟩,
    Plugboard.new [(65, 66)]⟩

/-! ## Theorems

First the wiring-table facts, established by evaluation, then the
arithmetic of `Rotor::encypher`. -/

theorem rotor_table_facts : ∀ id : RotorId, ∀ i : Fin 26,
    nth id.forwardWiring i.val < 26 ∧ nth id.backwardWiring i.val < 26 ∧
    nth id.backwardWiring (nth id.forwardWiring i.val) = i.val ∧
    nth id.forwardWiring (nth id.backwardWiring i.val) = i.val := by decide

theorem reflector_table_facts : ∀ s : ReflectorId, ∀ i : Fin 26,
    nth s.wiring i.val < 26 ∧ nth s.wiring (nth s.wiring i.val) = i.val := by
  decide


/-- The branch-based shift computation equals `(pos - ring) mod 26` in its natural-number form. -/
theorem encypher_shift_eq (pos ring : Nat) (hp : pos < 26) (hr : ring < 26) :
    (if (overflowingSub pos ring).2 then ((overflowingSub pos ring).1 + 26) % 256
     else (overflowingSub pos ring).1) = (pos + 26 - ring) % 26 := by
  by_cases h : pos < ring
  · simp [overflowingSub, h]
    omega
  · simp [overflowingSub, h]
    omega

/-- The branch-based `Rotor::encypher` computes the natural-number form of
the modulo reference. -/
theorem encypher_eq_modref (c pos ring : Nat) (mapping : List Nat)
    (hc : c < 26) (hp : pos < 26) (hr : ring < 26)
    (hm : ∀ i : Fin 26, nth mapping i.val < 26) :
    Rotor.encypher c pos ring mapping =
      (nth mapping ((c + (pos + 26 - ring) % 26) % 26) + 26 -
        (pos + 26 - ring) % 26) % 26 := by
  have hS : (pos + 26 - ring) % 26 < 26 := Nat.mod_lt _ (by norm_num)
  simp only [Rotor.encypher]
  rw [encypher_shift_eq pos ring hp hr]
  set S := (pos + 26 - ring) % 26 with hSdef
  have h1 : (c + S) % 256 = c + S := Nat.mod_eq_of_lt (by omega)
  rw [h1]
  have hidx : (if c + S ≤ 25 then c + S else c + S - 26) = (c + S) % 26 := by
    split_ifs <;> omega
  rw [hidx]
  have hv : nth mapping ((c + S) % 26) < 26 :=
    hm ⟨(c + S) % 26, Nat.mod_lt _ (by norm_num)⟩
  set v := nth mapping ((c + S) % 26) with hvdef
  by_cases h2 : v < S
  · simp [overflowingSub, h2]
    omega
  · simp [overflowingSub, h2]
    omega

/-- The result of `Rotor::encypher` is a letter index. -/
theorem encypher_lt_26 (c pos ring : Nat) (mapping : List Nat)
    (hc : c < 26) (hp : pos < 26) (hr : ring < 26)
    (hm : ∀ i : Fin 26, nth mapping i.val < 26) :
    Rotor.encypher c pos ring mapping < 26 := by
  rw [encypher_eq_modref c pos ring mapping hc hp hr hm]
  exact Nat.mod_lt _ (by norm_num)

/-- C3, amended: for all inputs in range, the branch-based `encypher`
equals the modulo reference definition, and the result is a letter
index; the claim's further condition that no `u8` arithmetic leaves the
defined range is refuted by `encypher_unchecked_overflows`. -/
theorem encypher_matches_modref (c pos ring : Nat) (mapping : List Nat)
    (hc : c < 26) (hp : pos < 26) (hr : ring < 26)
    (hm : ∀ i : Fin 26, nth mapping i.val < 26) :
    (Rotor.encypher c pos ring mapping : Int) =
      Rotor.encypherRef c pos ring mapping ∧
    Rotor.encypher c pos ring mapping < 26 := by
  constructor
  · rw [encypher_eq_modref c pos ring mapping hc hp hr hm]
    simp only [Rotor.encypherRef]
    have hS : (pos + 26 - ring) % 26 < 26 := Nat.mod_lt _ (by norm_num)
    have e1 : ((pos : Int) - ring) % 26 = ((pos + 26 - ring) % 26 : Nat) := by
      omega
    rw [e1]
    set S := (pos + 26 - ring) % 26 with hSdef
    have e2 : ((c : Int) + (S : Nat)) % 26 = ((c + S) % 26 : Nat) := by omega
    rw [e2]
    have e3 : (((c + S) % 26 : Nat) : Int).toNat = (c + S) % 26 := by omega
    rw [e3]
    have hv : nth mapping ((c + S) % 26) < 26 :=
      hm ⟨(c + S) % 26, Nat.mod_lt _ (by norm_num)⟩
    set v := nth mapping ((c + S) % 26) with hvdef
    omega
  · exact encypher_lt_26 c pos ring mapping hc hp hr hm

/-- C3, counterexample to the no-overflow side condition: with
`pos = 0, ring = 1` the borrow-fixing addition `x + 26` exceeds the `u8`
range, wrapping modulo 256 (the wrapped value is nonetheless the correct
one, as `encypher_matches_modref` shows). -/
theorem encypher_unchecked_overflows :
    ¬ Rotor.encypherUncheckedInRange 0 0 1 RotorId.Identity.forwardWiring := by
  decide

/-- Witness for `encypher_matches_modref` at a concrete input. -/
theorem encypher_matches_modref_witness :
    3 < 26 ∧ 5 < 26 ∧ 9 < 26 ∧
    ((Rotor.encypher 3 5 9 RotorId.III.forwardWiring : Int) =
      Rotor.encypherRef 3 5 9 RotorId.III.forwardWiring ∧
     Rotor.encypher 3 5 9 RotorId.III.forwardWiring < 26) :=
  ⟨by decide, by decide, by decide,
    encypher_matches_modref 3 5 9 RotorId.III.forwardWiring (by decide)
      (by decide) (by decide) (by decide)⟩

/-- Cyphering with a permutation table and then with its inverse table,
at the same position and ring setting, restores the input. -/
theorem encypher_inverse (c pos ring : Nat) (A B : List Nat)
    (hc : c < 26) (hp : pos < 26) (hr : ring < 26)
    (hA : ∀ i : Fin 26, nth A i.val < 26) (hB : ∀ i : Fin 26, nth B i.val < 26)
    (hBA : ∀ i : Fin 26, nth B (nth A i.val) = i.val) :
    Rotor.encypher (Rotor.encypher c pos ring A) pos ring B = c := by
  have hS : (pos + 26 - ring) % 26 < 26 := Nat.mod_lt _ (by norm_num)
  have hx : (c + (pos + 26 - ring) % 26) % 26 < 26 := Nat.mod_lt _ (by norm_num)
  have hvA : nth A ((c + (pos + 26 - ring) % 26) % 26) < 26 := hA ⟨_, hx⟩
  have hfwd := encypher_eq_modref c pos ring A hc hp hr hA
  have hfwd_lt : Rotor.encypher c pos ring A < 26 :=
    encypher_lt_26 c pos ring A hc hp hr hA
  rw [encypher_eq_modref _ pos ring B hfwd_lt hp hr hB, hfwd]
  set S := (pos + 26 - ring) % 26 with hSdef
  set v := nth A ((c + S) % 26) with hv
  have e4 : ((v + 26 - S) % 26 + S) % 26 = v := by omega
  rw [e4]
  have e5 : nth B (nth A ((c + S) % 26)) = (c + S) % 26 := hBA ⟨(c + S) % 26, hx⟩
  rw [← hv] at e5
  rw [e5]
  omega

/-- C6: for every rotor id and every position and ring setting in
`[0, 26)`, `Rotor::forward` and `Rotor::backward` are mutual inverses on
all 26 letter inputs. -/
theorem rotor_forward_backward_inverses (id : RotorId) (pos ring c : Nat)
    (hp : pos < 26) (hr : ring < 26) (hc : c < 26) :
    (Rotor.mk id pos ring).backward ((Rotor.mk id pos ring).forward c) = c ∧
    (Rotor.mk id pos ring).forward ((Rotor.mk id pos ring).backward c) = c := by
  have hA := fun i => (rotor_table_facts id i).1
  have hBlt := fun i => (rotor_table_facts id i).2.1
  have hBA := fun i => (rotor_table_facts id i).2.2.1
  have hAB := fun i => (rotor_table_facts id i).2.2.2
  simp only [Rotor.forward, Rotor.backward]
  constructor
  · exact encypher_inverse c pos ring id.forwardWiring id.backwardWiring hc hp hr
      hA hBlt hBA
  · exact encypher_inverse c pos ring id.backwardWiring id.forwardWiring hc hp hr
      hBlt hA hAB

/-- Witness for `rotor_forward_backward_inverses` at a concrete input. -/
theorem rotor_forward_backward_inverses_witness :
    3 < 26 ∧ 7 < 26 ∧ 11 < 26 ∧
    ((Rotor.mk RotorId.II 3 7).backward ((Rotor.mk RotorId.II 3 7).forward 11) = 11 ∧
     (Rotor.mk RotorId.II 3 7).forward ((Rotor.mk RotorId.II 3 7).backward 11) = 11) :=
  ⟨by decide, by decide, by decide,
    rotor_forward_backward_inverses RotorId.II 3 7 11 (by decide) (by decide)
      (by decide)⟩

/-- `Rotor::turnover` is the increment modulo 26. -/
theorem turnover_mod (r : Rotor) (h : r.rotorPosition < 26) :
    r.turnover = { r with rotorPosition := (r.rotorPosition + 1) % 26 } := by
  unfold Rotor.turnover
  congr 1
  split_ifs <;> omega

/-- C2: on every `Enigma::encrypt` call the stepping happens before
substitution exactly as specified: if the middle rotor sits at its notch,
the middle and the left rotor both turn over (double-step); otherwise if
the right rotor sits at its notch, only the middle rotor turns over; the
right rotor always turns over; ids, ring settings, reflector and
plugboard are untouched. -/
theorem rotate_steps_as_specified (e : Enigma)
    (hl : e.leftRotor.rotorPosition < 26) (hm : e.middleRotor.rotorPosition < 26)
    (hr : e.rightRotor.rotorPosition < 26) :
    e.rotate.rightRotor =
      { e.rightRotor with
        rotorPosition := (e.rightRotor.rotorPosition + 1) % 26 } ∧
    (if e.middleRotor.isAtNotch then
      e.rotate.middleRotor =
          { e.middleRotor with
            rotorPosition := (e.middleRotor.rotorPosition + 1) % 26 } ∧
        e.rotate.leftRotor =
          { e.leftRotor with
            rotorPosition := (e.leftRotor.rotorPosition + 1) % 26 }
    else if e.rightRotor.isAtNotch then
      e.rotate.middleRotor =
          { e.middleRotor with
            rotorPosition := (e.middleRotor.rotorPosition + 1) % 26 } ∧
        e.rotate.leftRotor = e.leftRotor
    else
      e.rotate.middleRotor = e.middleRotor ∧
      e.rotate.leftRotor = e.leftRotor) ∧
    e.rotate.reflector = e.reflector ∧ e.rotate.plugboard = e.plugboard := by
  by_cases h1 : e.middleRotor.isAtNotch
  · simp [Enigma.rotate, h1, turnover_mod _ hl, turnover_mod _ hm,
      turnover_mod _ hr]
  · by_cases h2 : e.rightRotor.isAtNotch
    · simp [Enigma.rotate, h1, h2, turnover_mod _ hm, turnover_mod _ hr]
    · simp [Enigma.rotate, h1, h2, turnover_mod _ hr]

/-- Witness for `rotate_steps_as_specified` at a concrete machine. -/
theorem rotate_steps_witness :
    (Enigma.mk ⟨.I, 16, 0⟩ ⟨.II, 4, 0⟩ ⟨.III, 21, 0⟩ .B
        (Plugboard.new [])).leftRotor.rotorPosition < 26 ∧
    (Enigma.mk ⟨.I, 16, 0⟩ ⟨.II, 4, 0⟩ ⟨.III, 21, 0⟩ .B
        (Plugboard.new [])).middleRotor.rotorPosition < 26 ∧
    (Enigma.mk ⟨.I, 16, 0⟩ ⟨.II, 4, 0⟩ ⟨.III, 21, 0⟩ .B
        (Plugboard.new [])).rightRotor.rotorPosition < 26 ∧
    (Enigma.mk ⟨.I, 16, 0⟩ ⟨.II, 4, 0⟩ ⟨.III, 21, 0⟩ .B
          (Plugboard.new [])).rotate.rightRotor =
      { (Enigma.mk ⟨.I, 16, 0⟩ ⟨.II, 4, 0⟩ ⟨.III, 21, 0⟩ .B
            (Plugboard.new [])).rightRotor with rotorPosition := (21 + 1) % 26 } :=
  ⟨by decide, by decide, by decide,
    (rotate_steps_as_specified
      (Enigma.mk ⟨.I, 16, 0⟩ ⟨.II, 4, 0⟩ ⟨.III, 21, 0⟩ .B (Plugboard.new []))
      (by decide) (by decide) (by decide)).1⟩

/-- `Rotor::forward` sends letter indices to letter indices. -/
theorem rotor_forward_lt (r : Rotor) (c : Nat) (hp : r.rotorPosition < 26)
    (hg : r.ringSetting < 26) (hc : c < 26) : r.forward c < 26 :=
  encypher_lt_26 c _ _ _ hc hp hg (fun i => (rotor_table_facts r.id i).1)

/-- `Rotor::backward` sends letter indices to letter indices. -/
theorem rotor_backward_lt (r : Rotor) (c : Nat) (hp : r.rotorPosition < 26)
    (hg : r.ringSetting < 26) (hc : c < 26) : r.backward c < 26 :=
  encypher_lt_26 c _ _ _ hc hp hg (fun i => (rotor_table_facts r.id i).2.1)

/-- `Rotor::backward` undoes `Rotor::forward`. -/
theorem rotor_backward_forward (r : Rotor) (c : Nat) (hp : r.rotorPosition < 26)
    (hg : r.ringSetting < 26) (hc : c < 26) : r.backward (r.forward c) = c := by
  simp only [Rotor.forward, Rotor.backward]
  exact encypher_inverse c _ _ _ _ hc hp hg
    (fun i => (rotor_table_facts r.id i).1)
    (fun i => (rotor_table_facts r.id i).2.1)
    (fun i => (rotor_table_facts r.id i).2.2.1)

/-- `Rotor::forward` undoes `Rotor::backward`. -/
theorem rotor_forward_backward (r : Rotor) (c : Nat) (hp : r.rotorPosition < 26)
    (hg : r.ringSetting < 26) (hc : c < 26) : r.forward (r.backward c) = c := by
  simp only [Rotor.forward, Rotor.backward]
  exact encypher_inverse c _ _ _ _ hc hp hg
    (fun i => (rotor_table_facts r.id i).2.1)
    (fun i => (rotor_table_facts r.id i).1)
    (fun i => (rotor_table_facts r.id i).2.2.2)

/-- `Rotor::turnover` keeps the position in range. -/
theorem turnover_lt (r : Rotor) (h : r.rotorPosition < 26) :
    r.turnover.rotorPosition < 26 := by
  simp only [Rotor.turnover]
  split_ifs <;> omega

/-- `Enigma::rotate` preserves the machine validity invariant. -/
theorem rotate_valid (e : Enigma) (h : e.Valid) : e.rotate.Valid := by
  obtain ⟨h1, h2, h3, h4, h5, h6, h7, h8⟩ := h
  simp only [Enigma.rotate]
  by_cases hm : e.middleRotor.isAtNotch
  · rw [if_pos hm]
    exact ⟨turnover_lt _ h1, h2, turnover_lt _ h3, h4, turnover_lt _ h5, h6,
      h7, h8⟩
  · rw [if_neg hm]
    by_cases hr : e.rightRotor.isAtNotch
    · rw [if_pos hr]
      exact ⟨h1, h2, turnover_lt _ h3, h4, turnover_lt _ h5, h6, h7, h8⟩
    · rw [if_neg hr]
      exact ⟨h1, h2, h3, h4, turnover_lt _ h5, h6, h7, h8⟩

/-- The per-character substitution of a valid machine is an involution on
the letter indices. -/
theorem subst_invol_lt (e : Enigma) (h : e.Valid) (c : Nat) (hc : c < 26) :
    e.subst c < 26 ∧ e.subst (e.subst c) = c := by
  obtain ⟨h1, h2, h3, h4, h5, h6, h7, h8⟩ := h
  have plug_lt : ∀ x, x < 26 → e.plugboard x < 26 := fun x hx => h7 ⟨x, hx⟩
  have plug_inv : ∀ x, x < 26 → e.plugboard (e.plugboard x) = x := fun x hx =>
    h8 ⟨x, hx⟩
  have refl_lt : ∀ x, x < 26 → e.reflector.forward x < 26 := fun x hx =>
    (reflector_table_facts e.reflector ⟨x, hx⟩).1
  have refl_inv : ∀ x, x < 26 →
      e.reflector.forward (e.reflector.forward x) = x := fun x hx =>
    (reflector_table_facts e.reflector ⟨x, hx⟩).2
  simp only [Enigma.subst]
  set a1 := e.plugboard c with ha1
  have b1 : a1 < 26 := plug_lt c hc
  set a2 := e.rightRotor.forward a1 with ha2
  have b2 : a2 < 26 := rotor_forward_lt _ _ h5 h6 b1
  set a3 := e.middleRotor.forward a2 with ha3
  have b3 : a3 < 26 := rotor_forward_lt _ _ h3 h4 b2
  set a4 := e.leftRotor.forward a3 with ha4
  have b4 : a4 < 26 := rotor_forward_lt _ _ h1 h2 b3
  set a5 := e.reflector.forward a4 with ha5
  have b5 : a5 < 26 := refl_lt _ b4
  set a6 := e.leftRotor.backward a5 with ha6
  have b6 : a6 < 26 := rotor_backward_lt _ _ h1 h2 b5
  set a7 := e.middleRotor.backward a6 with ha7
  have b7 : a7 < 26 := rotor_backward_lt _ _ h3 h4 b6
  set a8 := e.rightRotor.backward a7 with ha8
  have b8 : a8 < 26 := rotor_backward_lt _ _ h5 h6 b7
  set a9 := e.plugboard a8 with ha9
  have b9 : a9 < 26 := plug_lt _ b8
  refine ⟨b9, ?_⟩
  have s1 : e.plugboard a9 = a8 := by rw [ha9]; exact plug_inv a8 b8
  rw [s1]
  have s2 : e.rightRotor.forward a8 = a7 := by
    rw [ha8]; exact rotor_forward_backward _ _ h5 h6 b7
  rw [s2]
  have s3 : e.middleRotor.forward a7 = a6 := by
    rw [ha7]; exact rotor_forward_backward _ _ h3 h4 b6
  rw [s3]
  have s4 : e.leftRotor.forward a6 = a5 := by
    rw [ha6]; exact rotor_forward_backward _ _ h1 h2 b5
  rw [s4]
  have s5 : e.reflector.forward a5 = a4 := by rw [ha5]; exact refl_inv a4 b4
  rw [s5]
  have s6 : e.leftRotor.backward a4 = a3 := by
    rw [ha4]; exact rotor_backward_forward _ _ h1 h2 b3
  rw [s6]
  have s7 : e.middleRotor.backward a3 = a2 := by
    rw [ha3]; exact rotor_backward_forward _ _ h3 h4 b2
  rw [s7]
  have s8 : e.rightRotor.backward a2 = a1 := by
    rw [ha2]; exact rotor_backward_forward _ _ h5 h6 b1
  rw [s8]
  rw [ha1]
  exact plug_inv c hc

/-- Encrypting a message twice from the same machine state restores it:
both runs step the rotors identically, and each per-character
substitution is an involution. -/
theorem encryptList_involution_aux (msg : List Nat) :
    ∀ e : Enigma, e.Valid → (∀ c ∈ msg, isUpper c = true) →
      e.encryptList (e.encryptList msg) = msg := by
  induction msg with
  | nil => intro e _ _; rfl
  | cons c rest ih =>
    intro e hv hmsg
    have hc : isUpper c = true := hmsg c (List.mem_cons_self c rest)
    have hc' : 65 ≤ c ∧ c ≤ 90 := by
      simpa [isUpper, Bool.and_eq_true, decide_eq_true_eq] using hc
    have hvr : e.rotate.Valid := rotate_valid e hv
    have hlt : c - 65 < 26 := by omega
    obtain ⟨hslt, hsinv⟩ := subst_invol_lt e.rotate hvr (c - 65) hlt
    simp only [Enigma.encryptList, Enigma.encrypt]
    have e1 : e.rotate.subst (c - 65) + 65 - 65 = e.rotate.subst (c - 65) := by
      omega
    rw [e1, hsinv]
    have e2 : c - 65 + 65 = c := by omega
    rw [e2]
    rw [ih e.rotate hvr (fun x hx => hmsg x (List.mem_cons_of_mem c hx))]

/-- C1: full-machine involution.  For every key with in-range rotors and
an involutive plugboard, every reflector, and every uppercase message,
encrypting with a fresh machine and encrypting the output again with a
second fresh machine built from the same key and reflector restores the
original message. -/
theorem enigma_involution (key : EnigmaKey) (reflector : ReflectorId)
    (msg : List Nat) (hk : key.RotorsValid)
    (hp : ∀ i : Fin 26, key.plugboard i.val < 26)
    (hq : ∀ i : Fin 26, key.plugboard (key.plugboard i.val) = i.val)
    (hmsg : ∀ c ∈ msg, isUpper c = true) :
    (Enigma.new key reflector).encryptList
      ((Enigma.new key reflector).encryptList msg) = msg := by
  obtain ⟨k1, k2, k3, k4, k5, k6⟩ := hk
  exact encryptList_involution_aux msg (Enigma.new key reflector)
    ⟨k1, k2, k3, k4, k5, k6, hp, hq⟩ hmsg

/-- Witness for `enigma_involution` at a concrete key and message. -/
theorem enigma_involution_witness :
    (EnigmaKey.mk ⟨.I, 0, 0⟩ ⟨.II, 0, 0⟩ ⟨.III, 0, 0⟩
        (Plugboard.new [(65, 66)])).RotorsValid ∧
    (∀ c ∈ [72, 73], isUpper c = true) ∧
    (Enigma.new
        (EnigmaKey.mk ⟨.I, 0, 0⟩ ⟨.II, 0, 0⟩ ⟨.III, 0, 0⟩
          (Plugboard.new [(65, 66)])) .B).encryptList
      ((Enigma.new
          (EnigmaKey.mk ⟨.I, 0, 0⟩ ⟨.II, 0, 0⟩ ⟨.III, 0, 0⟩
            (Plugboard.new [(65, 66)])) .B).encryptList [72, 73]) = [72, 73] :=
  ⟨by decide, by decide,
    enigma_involution
      (EnigmaKey.mk ⟨.I, 0, 0⟩ ⟨.II, 0, 0⟩ ⟨.III, 0, 0⟩
        (Plugboard.new [(65, 66)])) .B [72, 73] (by decide) (by decide)
      (by decide) (by decide)⟩

/-- Letter counting, one character at a time. -/
theorem letterCount_cons (c : Nat) (rest : List Nat) (i : Nat) :
    letterCount (c :: rest) i = letterCount rest i +
      (if c - 65 = i then 1 else 0) := by
  simp only [letterCount, List.map_cons, List.count_cons]
  by_cases h : c - 65 = i
  · simp [h]
  · have h' : ¬(i = c - 65) := fun e => h e.symm
    simp [h, h']

/-- The histogram fold counts letters modulo `2^32`, from any in-range
starting table. -/
theorem histogram_fold_mod (text : List Nat) :
    ∀ (h : Nat → Nat), (∀ j, h j < 2 ^ 32) → ∀ i,
      (text.foldl
        (fun h c => Function.update h (c - 65) (u32add (h (c - 65)) 1)) h) i =
        (h i + letterCount text i) % 2 ^ 32 := by
  induction text with
  | nil =>
    intro h hh i
    have := hh i
    simp only [List.foldl_nil, letterCount, List.map_nil, List.count_nil]
    omega
  | cons c rest ih =>
    intro h hh i
    simp only [List.foldl_cons]
    have hup : ∀ j, Function.update h (c - 65) (u32add (h (c - 65)) 1) j < 2 ^ 32 := by
      intro j
      by_cases hj : j = c - 65
      · simp [Function.update, hj, u32add]
        omega
      · simp [Function.update, hj]
        exact hh j
    rw [ih _ hup i, letterCount_cons]
    by_cases hj : i = c - 65
    · simp [Function.update, hj, u32add]
      omega
    · have : ¬ (c - 65 = i) := fun hx => hj hx.symm
      simp [Function.update, hj, this]

/-- The `u32` histogram holds the letter counts modulo `2^32`. -/
theorem histogram_mod (text : List Nat) (i : Nat) :
    IoCFitness.histogram text i = letterCount text i % 2 ^ 32 := by
  have := histogram_fold_mod text (fun _ => 0) (fun _ => by norm_num) i
  simpa [IoCFitness.histogram] using this

/-- A `u32` wrapping-sum fold is the plain sum modulo `2^32`. -/
theorem foldl_u32add (l : List Nat) :
    ∀ a, a < 2 ^ 32 → l.foldl u32add a = (a + l.sum) % 2 ^ 32 := by
  induction l with
  | nil =>
    intro a ha
    simp only [List.foldl_nil, List.sum_nil]
    omega
  | cons x rest ih =>
    intro a ha
    simp only [List.foldl_cons, List.sum_cons]
    rw [ih (u32add a x) (Nat.mod_lt _ (by norm_num))]
    simp only [u32add]
    omega

/-- Sums distribute over pointwise addition. -/
theorem sum_map_add_nat (l : List Nat) (f g : Nat → Nat) :
    (l.map (fun x => f x + g x)).sum = (l.map f).sum + (l.map g).sum := by
  induction l with
  | nil => rfl
  | cons x rest ih =>
    simp only [List.map_cons, List.sum_cons, ih]
    omega

/-- A sum of an equality indicator over `0..n` is at most one. -/
theorem sum_indicator_range (n k : Nat) :
    ((List.range n).map (fun i => if k = i then 1 else 0)).sum =
      if k < n then 1 else 0 := by
  induction n with
  | zero => simp
  | succ n ih =>
    rw [List.range_succ]
    simp only [List.map_append, List.sum_append, ih, List.map_cons,
      List.map_nil, List.sum_cons, List.sum_nil]
    split_ifs <;> omega

/-- The 26 letter counts sum to at most the text length. -/
theorem letterCount_range_sum_le (text : List Nat) :
    ((List.range 26).map (fun i => letterCount text i)).sum ≤ text.length := by
  induction text with
  | nil => simp [letterCount]
  | cons c rest ih =>
    have e : ((List.range 26).map (fun i => letterCount (c :: rest) i)).sum =
        ((List.range 26).map (fun i => letterCount rest i)).sum +
          ((List.range 26).map (fun i => if c - 65 = i then 1 else 0)).sum := by
      rw [← sum_map_add_nat]
      congr 1
      exact List.map_congr_left (fun i _ => letterCount_cons c rest i)
    rw [e, sum_indicator_range]
    simp only [List.length_cons]
    split_ifs <;> omega

/-- Convexity bound: the sum of `x * (x - 1)` is at most
`s * (s - 1)` for `s` the sum of the entries. -/
theorem sum_mul_pred_le (l : List Nat) :
    (l.map (fun x => x * (x - 1))).sum ≤ l.sum * (l.sum - 1) := by
  induction l with
  | nil => simp
  | cons x rest ih =>
    simp only [List.map_cons, List.sum_cons]
    have h1 : x * (x - 1) ≤ x * (x + rest.sum - 1) :=
      Nat.mul_le_mul_left x (by omega)
    have h2 : (rest.map (fun x => x * (x - 1))).sum ≤
        rest.sum * (x + rest.sum - 1) :=
      le_trans ih (Nat.mul_le_mul_left rest.sum (by omega))
    calc x * (x - 1) + (rest.map (fun x => x * (x - 1))).sum
        ≤ x * (x + rest.sum - 1) + rest.sum * (x + rest.sum - 1) := by
          exact Nat.add_le_add h1 h2
      _ = (x + rest.sum) * (x + rest.sum - 1) := by ring

/-- `IoCFitness::score`'s accumulated total, expressed through the letter
counts, with all `u32` wrap-arounds still explicit. -/
theorem ioc_total_mod (text : List Nat) :
    IoCFitness.total text =
      (((List.range 26).map
        (fun i => u32mul (letterCount text i % 2 ^ 32)
          (u32sub (letterCount text i % 2 ^ 32) 1))).sum) % 2 ^ 32 := by
  unfold IoCFitness.total
  rw [foldl_u32add _ 0 (by norm_num), Nat.zero_add,
    List.map_congr_left
      (fun i _ => by rw [histogram_mod] :
        ∀ i ∈ List.range 26,
          u32mul (IoCFitness.histogram text i)
            (u32sub (IoCFitness.histogram text i) 1) =
          u32mul (letterCount text i % 2 ^ 32)
            (u32sub (letterCount text i % 2 ^ 32) 1))]

/-- For texts of length at most 65535 none of the `u32` arithmetic in the
total wraps past `2^32`, and the total is the exact mathematical sum. -/
theorem ioc_total_eq_math (text : List Nat) (hlen : text.length ≤ 65535) :
    IoCFitness.total text =
      ((List.range 26).map
        (fun i => letterCount text i * (letterCount text i - 1))).sum := by
  have hcount : ∀ i, letterCount text i ≤ 65535 := by
    intro i
    calc letterCount text i ≤ (text.map (fun c => c - 65)).length :=
          List.count_le_length _ _
      _ = text.length := List.length_map _ _
      _ ≤ 65535 := hlen
  have hterm : ∀ i, u32mul (letterCount text i % 2 ^ 32)
      (u32sub (letterCount text i % 2 ^ 32) 1) =
      letterCount text i * (letterCount text i - 1) := by
    intro i
    have hc := hcount i
    have hmod : letterCount text i % 2 ^ 32 = letterCount text i :=
      Nat.mod_eq_of_lt (by omega)
    rw [hmod]
    set v := letterCount text i with hv
    rcases Nat.eq_zero_or_pos v with h0 | h0
    · simp [h0, u32sub, u32mul]
    · have hsub : u32sub v 1 = v - 1 := by unfold u32sub; omega
      rw [hsub]
      unfold u32mul
      have : v * (v - 1) < 2 ^ 32 := by
        calc v * (v - 1) ≤ 65535 * 65534 :=
              Nat.mul_le_mul hc (by omega)
          _ < 2 ^ 32 := by norm_num
      omega
  rw [ioc_total_mod]
  rw [List.map_congr_left (fun i _ => hterm i)]
  apply Nat.mod_eq_of_lt
  have h1 := sum_mul_pred_le ((List.range 26).map (fun i => letterCount text i))
  rw [List.map_map] at h1
  have h2 := letterCount_range_sum_le text
  have h3 : ((List.range 26).map (fun i => letterCount text i)).sum *
      (((List.range 26).map (fun i => letterCount text i)).sum - 1) ≤
      65535 * 65534 := Nat.mul_le_mul (by omega) (by omega)
  have h4 : (List.map ((fun x => x * (x - 1)) ∘ fun i => letterCount text i)
      (List.range 26)).sum =
      ((List.range 26).map
        (fun i => letterCount text i * (letterCount text i - 1))).sum := rfl
  calc ((List.range 26).map
        (fun i => letterCount text i * (letterCount text i - 1))).sum
      ≤ 65535 * 65534 := by rw [← h4]; exact le_trans h1 h3
    _ < 2 ^ 32 := by norm_num

/-- C10: the `u32` term `v * (v - 1)` is evaluated for all 26 counters
including zero counts, where the subtraction wraps to `2^32 - 1` and the
product collapses back to 0; for every text of length at most 65535 the
accumulated total equals the mathematical sum of `n_i * (n_i - 1)`. -/
theorem ioc_total_wraps_correctly (text : List Nat) (hlen : text.length ≤ 65535) :
    u32sub 0 1 = 2 ^ 32 - 1 ∧ u32mul 0 (u32sub 0 1) = 0 ∧
    IoCFitness.total text =
      ((List.range 26).map
        (fun i => letterCount text i * (letterCount text i - 1))).sum :=
  ⟨by norm_num [u32sub], by norm_num [u32sub, u32mul],
    ioc_total_eq_math text hlen⟩

/-- Witness for `ioc_total_wraps_correctly` at a concrete text. -/
theorem ioc_total_wraps_correctly_witness :
    ([65, 65, 66] : List Nat).length ≤ 65535 ∧
    (u32sub 0 1 = 2 ^ 32 - 1 ∧ u32mul 0 (u32sub 0 1) = 0 ∧
     IoCFitness.total [65, 65, 66] =
       ((List.range 26).map
         (fun i => letterCount [65, 65, 66] i *
           (letterCount [65, 65, 66] i - 1))).sum) :=
  ⟨by norm_num, ioc_total_wraps_correctly [65, 65, 66] (by norm_num)⟩

/-- C9, amended with the length bound 65535 (beyond it the `u32` total
wraps, see `ioc_score_cex`): the score is the sum of `n_i * (n_i - 1)`
over the 26 letter counts divided by `N * (N - 1)`, and a 100-character
single-letter text scores exactly 1. -/
theorem ioc_score_formula (text : List Nat)
    (hupper : ∀ c ∈ text, isUpper c = true) (h2 : 2 ≤ text.length)
    (hN : text.length ≤ 65535) :
    IoCFitness.score text =
      ((((List.range 26).map
        (fun i => letterCount text i * (letterCount text i - 1))).sum : Nat) : Rat) /
        ((text.length : Rat) * ((text.length : Rat) - 1)) ∧
    IoCFitness.score (List.replicate 100 65) = 1 := by
  constructor
  · unfold IoCFitness.score
    rw [ioc_total_eq_math text hN]
  · have hlen100 : (List.replicate 100 65).length ≤ 65535 := by simp
    have hlc100 : ∀ i, letterCount (List.replicate 100 65) i =
        if i = 0 then 100 else 0 := by
      intro i
      unfold letterCount
      rw [List.map_replicate, List.count_replicate]
      by_cases h : i = 0
      · subst h
        norm_num
      · have h' : ((65 - 65 : Nat) == i) = false := by simp [Ne.symm h]
        rw [h']
        simp [h]
    have hmap : (List.range 26).map
        (fun i => letterCount (List.replicate 100 65) i *
          (letterCount (List.replicate 100 65) i - 1)) =
        (List.range 26).map
          (fun i => (if i = 0 then 100 else 0) *
            ((if i = 0 then 100 else 0) - 1)) :=
      List.map_congr_left (fun i _ => by rw [hlc100 i])
    have hs : ((List.range 26).map
        (fun i => (if i = 0 then 100 else 0) *
          ((if i = 0 then 100 else 0) - 1))).sum = 9900 := by decide
    unfold IoCFitness.score
    rw [ioc_total_eq_math _ hlen100, hmap, hs, List.length_replicate]
    norm_num

/-- C9, counterexample to the claim as stated (no length bound): on a
65537-character single-letter text the `u32` product wraps and the score
is no longer the mathematical ratio (which would be 1). -/
theorem ioc_score_cex :
    IoCFitness.score (List.replicate 65537 65) ≠
      ((((List.range 26).map
        (fun i => letterCount (List.replicate 65537 65) i *
          (letterCount (List.replicate 65537 65) i - 1))).sum : Nat) : Rat) /
        (((List.replicate 65537 65).length : Rat) *
          (((List.replicate 65537 65).length : Rat) - 1)) := by
  have hlc : ∀ i, letterCount (List.replicate 65537 65) i =
      if i = 0 then 65537 else 0 := by
    intro i
    unfold letterCount
    rw [List.map_replicate, List.count_replicate]
    by_cases h : i = 0
    · subst h
      norm_num
    · have h' : ((65 - 65 : Nat) == i) = false := by simp [Ne.symm h]
      rw [h']
      simp [h]
  have h1 : IoCFitness.total (List.replicate 65537 65) = 65536 := by
    rw [ioc_total_mod]
    rw [List.map_congr_left
      (fun i _ => by rw [hlc i] :
        ∀ i ∈ List.range 26,
          u32mul (letterCount (List.replicate 65537 65) i % 2 ^ 32)
            (u32sub (letterCount (List.replicate 65537 65) i % 2 ^ 32) 1) =
          u32mul ((if i = 0 then 65537 else 0) % 2 ^ 32)
            (u32sub ((if i = 0 then 65537 else 0) % 2 ^ 32) 1))]
    decide
  have h2 : ((List.range 26).map
      (fun i => letterCount (List.replicate 65537 65) i *
        (letterCount (List.replicate 65537 65) i - 1))).sum = 4295032832 := by
    rw [List.map_congr_left
      (fun i _ => by rw [hlc i] :
        ∀ i ∈ List.range 26,
          letterCount (List.replicate 65537 65) i *
            (letterCount (List.replicate 65537 65) i - 1) =
          (if i = 0 then 65537 else 0) * ((if i = 0 then 65537 else 0) - 1))]
    decide
  unfold IoCFitness.score
  rw [h1, h2, List.length_replicate]
  norm_num


/-- Witness for `ioc_score_formula` at a concrete text. -/
theorem ioc_score_formula_witness :
    (∀ c ∈ [65, 65, 66], isUpper c = true) ∧
    2 ≤ ([65, 65, 66] : List Nat).length ∧
    ([65, 65, 66] : List Nat).length ≤ 65535 ∧
    (IoCFitness.score [65, 65, 66] =
      ((((List.range 26).map
        (fun i => letterCount [65, 65, 66] i *
          (letterCount [65, 65, 66] i - 1))).sum : Nat) : Rat) /
        ((([65, 65, 66] : List Nat).length : Rat) *
          ((([65, 65, 66] : List Nat).length : Rat) - 1)) ∧
     IoCFitness.score (List.replicate 100 65) = 1) :=
  ⟨by decide, by norm_num, by norm_num,
    ioc_score_formula [65, 65, 66] (by decide) (by norm_num) (by norm_num)⟩

/-- Appending a letter multiplies the packed index by 32 and adds the new
letter's value: the 5-bit shifts implement base-32 positional packing. -/
theorem ngram_index_snoc (v : List Nat) (c : Nat) :
    NgramFitness.index (v ++ [c]) = 32 * NgramFitness.index v + (c - 65) := by
  unfold NgramFitness.index
  rw [List.length_append, List.length_cons, List.length_nil]
  rw [List.reverse_append]
  simp only [List.reverse_cons, List.reverse_nil, List.nil_append,
    List.cons_append, List.nil_append]
  rw [List.range_succ_eq_map]
  simp only [List.map_cons, List.map_map]
  rw [List.zip_cons_cons]
  simp only [List.map_cons, List.sum_cons]
  rw [List.zip_map_left, List.map_map]
  rw [List.zip_map_left, List.map_map]
  have hfun : ((fun sv : Nat × Nat => (sv.2 - 65) * 2 ^ sv.1) ∘
      Prod.map ((fun i => i * 5) ∘ Nat.succ) id) =
      (fun p : Nat × Nat => 32 * ((p.2 - 65) * 2 ^ (p.1 * 5))) := by
    funext p
    simp only [Function.comp, Prod.map, id]
    have : (p.1 + 1) * 5 = p.1 * 5 + 5 := by ring
    rw [Nat.succ_eq_add_one, this, pow_add]
    ring
  rw [hfun]
  have hfun2 : ((fun sv : Nat × Nat => (sv.2 - 65) * 2 ^ sv.1) ∘
      Prod.map (fun i => i * 5) id) =
      (fun p : Nat × Nat => (p.2 - 65) * 2 ^ (p.1 * 5)) := by
    funext p
    simp only [Function.comp, Prod.map, id]
  rw [hfun2, List.sum_map_mul_left]
  ring

/-- `NgramFitness::index` is exactly the base-32 positional encoding,
first letter most significant. -/
theorem ngram_index_eq_base32 (v : List Nat) :
    NgramFitness.index v = base32Index v := by
  induction v using List.reverseRecOn with
  | nil => rfl
  | append_singleton v c ih =>
    rw [ngram_index_snoc]
    unfold base32Index at ih ⊢
    rw [List.foldl_append]
    simp only [List.foldl_cons, List.foldl_nil]
    omega

/-- Monotone bound for the base-32 fold. -/
theorem base32_le_aux (v : List Nat) : ∀ a b : Nat, a ≤ b → (∀ c ∈ v, c ≤ 90) →
    v.foldl (fun acc c => acc * 32 + (c - 65)) a ≤
      (List.replicate v.length 90).foldl (fun acc c => acc * 32 + (c - 65)) b := by
  induction v with
  | nil => intro a b h _; simpa using h
  | cons c rest ih =>
    intro a b h hc
    rw [List.length_cons, List.replicate_succ]
    simp only [List.foldl_cons]
    refine ih _ _ ?_ (fun x hx => hc x (List.mem_cons_of_mem c hx))
    have := hc c (List.mem_cons_self c rest)
    omega

/-- Every `N`-letter window of characters up to `Z` packs to an index
within the table size `index([Z; N]) + 1`. -/
theorem ngram_index_lt (v : List Nat) (N : Nat) (hlen : v.length = N)
    (hv : ∀ c ∈ v, c ≤ 90) :
    NgramFitness.index v < NgramFitness.index (List.replicate N 90) + 1 := by
  have h := base32_le_aux v 0 0 (le_refl 0) hv
  rw [hlen] at h
  rw [ngram_index_eq_base32, ngram_index_eq_base32]
  unfold base32Index
  omega

/-- A text shorter than the window size yields no windows. -/
theorem arrWindows_nil_of_short (N : Nat) (text : List Nat)
    (h : text.length < N) : arrWindows N text = [] := by
  cases text with
  | nil => rfl
  | cons c rest =>
    unfold arrWindows
    rw [if_pos h]

/-- Every produced window has the requested length and draws its
characters from the text. -/
theorem arrWindows_mem (N : Nat) (text : List Nat) :
    ∀ w ∈ arrWindows N text, w.length = N ∧ ∀ c ∈ w, c ∈ text := by
  induction text with
  | nil => simp [arrWindows]
  | cons c rest ih =>
    intro w hw
    unfold arrWindows at hw
    by_cases h : (c :: rest).length < N
    · rw [if_pos h] at hw
      simp at hw
    · rw [if_neg h] at hw
      rcases List.mem_cons.mp hw with h1 | h1
      · subst h1
        refine ⟨by rw [List.length_take]; omega, ?_⟩
        intro x hx
        exact List.take_subset _ _ hx
      · obtain ⟨hl, hm⟩ := ih w h1
        exact ⟨hl, fun x hx => List.mem_cons_of_mem c (hm x hx)⟩

/-- The table built by the construction fold holds, at every in-range
index, the value of the last entry packing to that index, and the
initial content elsewhere. -/
theorem ngram_fold_lookup (N : Nat) (entries : List (List Nat × Rat)) :
    ∀ (s0 store : List Rat),
      entries.foldlM
        (fun store kv =>
          if kv.1.all isUpper && kv.1.length == N then
            some (store.set (NgramFitness.index kv.1) kv.2)
          else none) s0 = some store →
      ∀ p, p < s0.length →
        store.getD p 0 =
          match entries.reverse.find?
              (fun kv => NgramFitness.index kv.1 == p) with
          | some kv => kv.2
          | none => s0.getD p 0 := by
  induction entries with
  | nil =>
    intro s0 store h p hp
    simp only [List.foldlM_nil, Option.pure_def, Option.some_inj] at h
    subst h
    rfl
  | cons kv rest ih =>
    intro s0 store h p hp
    simp only [List.foldlM_cons] at h
    by_cases hvalid : (kv.1.all isUpper && kv.1.length == N) = true
    · rw [if_pos hvalid] at h
      simp only [Option.bind_eq_bind, Option.some_bind] at h
      have hp' : p < (s0.set (NgramFitness.index kv.1) kv.2).length := by
        rw [List.length_set]; exact hp
      have := ih _ store h p hp'
      rw [this]
      rw [List.reverse_cons, List.find?_append]
      cases heq : rest.reverse.find? (fun kv => NgramFitness.index kv.1 == p) with
      | some kv' => simp [Option.or, heq]
      | none =>
        simp only [heq, Option.none_or]
        by_cases hidx : NgramFitness.index kv.1 = p
        · simp only [List.find?_cons, hidx, beq_self_eq_true, if_pos]
          simp only [List.getD_eq_getElem?_getD]
          rw [List.getElem?_set_self hp]
          rfl
        · have hb : (NgramFitness.index kv.1 == p) = false := by
            simpa using hidx
          simp only [List.find?_cons, hb]
          simp only [List.getD_eq_getElem?_getD]
          rw [List.getElem?_set_ne hidx]
          rfl
    · rw [if_neg hvalid] at h
      simp at h

/-- Reading the built table at a window's packed index returns the last
matching source entry, or the floor value if the index was never set. -/
theorem ngram_store_lookup (N : Nat) (floor : Rat)
    (entries : List (List Nat × Rat)) (store : List Rat)
    (hstore : NgramFitness.new N floor entries = some store)
    (w : List Nat) (hw : w.length = N) (hup : ∀ c ∈ w, c ≤ 90) :
    store.getD (NgramFitness.index w) 0 = ngramLookup floor entries w := by
  simp only [NgramFitness.new] at hstore
  have hp : NgramFitness.index w <
      (List.replicate (NgramFitness.index (List.replicate N 90) + 1)
        floor).length := by
    rw [List.length_replicate]
    exact ngram_index_lt w N hw hup
  have hmain := ngram_fold_lookup N entries _ store hstore
    (NgramFitness.index w) hp
  rw [hmain]
  unfold ngramLookup
  cases heq : entries.reverse.find?
      (fun kv => NgramFitness.index kv.1 == NgramFitness.index w) with
  | some kv => simp only [heq]
  | none =>
    simp only [heq]
    rw [List.getD_eq_getElem?_getD, List.getElem?_replicate,
      if_pos (ngram_index_lt w N hw hup)]
    rfl

/-- C5, amended (base-32 in place of base-26): for every table built by
`NgramFitness::new` (floor value and entry values abstracted as exact
rationals), the score of an uppercase text is the sum over every sliding
window of the table entry at that window's packed index, which is its
base-32 encoding (5 bits per letter); indices never set hold the floor
value; texts shorter than `N` score 0. -/
theorem ngram_score_spec (N : Nat) (floor : Rat)
    (entries : List (List Nat × Rat)) (store : List Rat) (text : List Nat)
    (hN : 1 ≤ N) (hstore : NgramFitness.new N floor entries = some store)
    (htext : ∀ c ∈ text, isUpper c = true) :
    NgramFitness.score N store text =
      ((arrWindows N text).map (fun w => ngramLookup floor entries w)).sum ∧
    (∀ w ∈ arrWindows N text, NgramFitness.index w = base32Index w) ∧
    (text.length < N → NgramFitness.score N store text = 0) := by
  refine ⟨?_, fun w _ => ngram_index_eq_base32 w, ?_⟩
  · unfold NgramFitness.score
    refine congrArg List.sum ?_
    refine List.map_congr_left (fun w hw => ?_)
    obtain ⟨hlen, hmem⟩ := arrWindows_mem N text w hw
    refine ngram_store_lookup N floor entries store hstore w hlen ?_
    intro c hc
    have := htext c (hmem c hc)
    simp only [isUpper, Bool.and_eq_true, decide_eq_true_eq] at this
    omega
  · intro hshort
    unfold NgramFitness.score
    rw [arrWindows_nil_of_short N text hshort]
    rfl

/-- C5, counterexample to the base-26 indexing: a table built from the
single line `BA,-1` makes the score of "BA" `-1`, while the claimed sum of
entries at base-26 encodings reads table[26] (never set, floor 0)
instead of table[32]. -/
theorem ngram_base26_cex :
    NgramFitness.new 2 0 [([66, 65], -1)] = some ngramCexStore ∧
    NgramFitness.score 2 ngramCexStore [66, 65] = -1 ∧
    ((arrWindows 2 [66, 65]).map
      (fun w => ngramCexStore.getD (base26Index w) 0)).sum = 0 ∧
    (-1 : Rat) ≠ 0 := by
  refine ⟨?_, ?_, ?_, by norm_num⟩
  · rfl
  · show ((arrWindows 2 [66, 65]).map
        (fun w => ngramCexStore.getD (NgramFitness.index w) 0)).sum = -1
    have h1 : arrWindows 2 [66, 65] = [[66, 65]] := rfl
    rw [h1]
    simp only [List.map_cons, List.map_nil, List.sum_cons, List.sum_nil]
    have h2 : ngramCexStore.getD (NgramFitness.index [66, 65]) 0 = -1 := rfl
    rw [h2]
    norm_num
  · have h1 : arrWindows 2 [66, 65] = [[66, 65]] := rfl
    rw [h1]
    simp only [List.map_cons, List.map_nil, List.sum_cons, List.sum_nil]
    have h2 : ngramCexStore.getD (base26Index [66, 65]) 0 = 0 := rfl
    rw [h2]
    norm_num

/-- Witness for `ngram_score_spec` at a concrete table and text. -/
theorem ngram_score_spec_witness :
    1 ≤ 2 ∧
    NgramFitness.new 2 0 [([66, 65], -1)] = some ngramCexStore ∧
    (∀ c ∈ [66, 65], isUpper c = true) ∧
    (NgramFitness.score 2 ngramCexStore [66, 65] =
        ((arrWindows 2 [66, 65]).map
          (fun w => ngramLookup 0 [([66, 65], -1)] w)).sum ∧
      (∀ w ∈ arrWindows 2 [66, 65],
        NgramFitness.index w = base32Index w) ∧
      (([66, 65] : List Nat).length < 2 →
        NgramFitness.score 2 ngramCexStore [66, 65] = 0)) :=
  ⟨by norm_num, by rfl, by decide,
    ngram_score_spec 2 0 [([66, 65], -1)] ngramCexStore [66, 65]
      (by norm_num) (by rfl) (by decide)⟩

/-- Subtracting `b'A'` is injective on uppercase ASCII codes. -/
theorem letter_index_inj (a b : Nat) (ha : isUpper a = true) (hb : isUpper b = true)
    (h : a - 65 = b - 65) : a = b := by
  simp only [isUpper, Bool.and_eq_true, decide_eq_true_eq] at ha hb
  omega

/-- On valid, mutually disjoint pairs whose letters are unseen, the
decode loop succeeds, marking the pairs' letters and applying their
mapping updates. -/
theorem decodeGo_eq (pairs : List (Nat × Nat)) :
    ∀ (seen : Nat → Bool) (mapping : Nat → Nat),
      (∀ p ∈ pairs, PairValid p) →
      (∀ p ∈ pairs, seen (p.1 - 65) = false ∧ seen (p.2 - 65) = false) →
      pairs.Pairwise PairDisjoint →
      Plugboard.decodeGo seen mapping pairs =
        some (fun i => seen i || seenOf pairs i, applyPairs mapping pairs) := by
  induction pairs with
  | nil =>
    intro seen mapping _ _ _
    simp [Plugboard.decodeGo, seenOf, applyPairs]
  | cons p rest ih =>
    intro seen mapping hval hfresh hdisj
    obtain ⟨rc1, rc2⟩ := p
    have hv : PairValid (rc1, rc2) := hval _ (List.mem_cons_self _ _)
    have hcond : (isUpper rc1 && isUpper rc2) = true := by
      simp [hv.1, hv.2]
    have hf := hfresh _ (List.mem_cons_self _ _)
    simp only [Plugboard.decodeGo, hcond, if_true]
    have hseenchk : (seen (rc1 - 65) || seen (rc2 - 65)) = false := by
      simp only at hf
      simp [hf.1, hf.2]
    rw [if_neg (by simp [hseenchk])]
    have hfresh' : ∀ q ∈ rest,
        (Function.update (Function.update seen (rc1 - 65) true) (rc2 - 65) true)
            (q.1 - 65) = false ∧
        (Function.update (Function.update seen (rc1 - 65) true) (rc2 - 65) true)
            (q.2 - 65) = false := by
      intro q hq
      have hqv : PairValid q := hval _ (List.mem_cons_of_mem _ hq)
      have hd : PairDisjoint (rc1, rc2) q :=
        (List.pairwise_cons.mp hdisj).1 q hq
      have hqf := hfresh _ (List.mem_cons_of_mem _ hq)
      obtain ⟨d1, d2, d3, d4⟩ := hd
      constructor
      · rw [Function.update_noteq, Function.update_noteq]
        · exact hqf.1
        · exact fun h => d1 (letter_index_inj q.1 rc1 hqv.1 hv.1 h).symm
        · exact fun h => d3 (letter_index_inj q.1 rc2 hqv.1 hv.2 h).symm
      · rw [Function.update_noteq, Function.update_noteq]
        · exact hqf.2
        · exact fun h => d2 (letter_index_inj q.2 rc1 hqv.2 hv.1 h).symm
        · exact fun h => d4 (letter_index_inj q.2 rc2 hqv.2 hv.2 h).symm
    rw [ih _ _ (fun q hq => hval _ (List.mem_cons_of_mem _ hq)) hfresh'
      (List.pairwise_cons.mp hdisj).2]
    refine congrArg some (Prod.ext ?_ rfl)
    funext i
    simp only [seenOf, List.any_cons]
    by_cases h2 : i = rc2 - 65
    · subst h2
      simp [Function.update]
    · by_cases h1 : i = rc1 - 65
      · subst h1
        simp [Function.update, h2]
      · have hb1 : (rc1 - 65 == i) = false := by
          simp only [beq_eq_false_iff_ne]
          exact fun h => h1 h.symm
        have hb2 : (rc2 - 65 == i) = false := by
          simp only [beq_eq_false_iff_ne]
          exact fun h => h2 h.symm
        rw [Function.update_noteq h2, Function.update_noteq h1]
        simp [hb1, hb2]

/-- Recording one more pair in the `seen` array. -/
theorem seenOf_append_pair (prev : List (Nat × Nat)) (rc1 rc2 : Nat) :
    Function.update (Function.update (seenOf prev) (rc1 - 65) true)
        (rc2 - 65) true =
      seenOf (prev ++ [(rc1, rc2)]) := by
  funext i
  simp only [seenOf, List.any_append, List.any_cons, List.any_nil]
  by_cases h2 : i = rc2 - 65
  · subst h2
    simp [Function.update]
  · by_cases h1 : i = rc1 - 65
    · subst h1
      simp [Function.update, h2]
    · rw [Function.update_noteq h2, Function.update_noteq h1]
      have hb1 : (rc1 - 65 == i) = false := by
        simp only [beq_eq_false_iff_ne]
        exact fun h => h1 h.symm
      have hb2 : (rc2 - 65 == i) = false := by
        simp only [beq_eq_false_iff_ne]
        exact fun h => h2 h.symm
      simp [seenOf, hb1, hb2]

/-- The decode loop panics exactly when some remaining pair is invalid or
some letter is reused, relative to the already-processed prefix. -/
theorem decodeGo_none_iff (pairs : List (Nat × Nat)) :
    ∀ (prev : List (Nat × Nat)) (mapping : Nat → Nat),
      (∀ p ∈ prev, PairValid p) →
      prev.Pairwise PairDisjoint →
      (Plugboard.decodeGo (seenOf prev) mapping pairs = none ↔
        (∃ p ∈ pairs, ¬ PairValid p) ∨
        ¬ (prev ++ pairs).Pairwise PairDisjoint) := by
  induction pairs with
  | nil =>
    intro prev mapping hval hdisj
    simp [Plugboard.decodeGo, hdisj]
  | cons p rest ih =>
    intro prev mapping hvalprev hdisjprev
    obtain ⟨rc1, rc2⟩ := p
    by_cases hv : PairValid (rc1, rc2)
    · have hcond : (isUpper rc1 && isUpper rc2) = true := by
        simp [hv.1, hv.2]
      simp only [Plugboard.decodeGo, hcond, if_true]
      by_cases hseen :
          (seenOf prev (rc1 - 65) || seenOf prev (rc2 - 65)) = true
      · rw [if_pos hseen]
        refine iff_of_true rfl (Or.inr ?_)
        intro hPW
        have hcross := (List.pairwise_append.mp hPW).2.2
        rcases Bool.or_eq_true _ _ |>.mp hseen with h | h
        · obtain ⟨q, hq, hqb⟩ := List.any_eq_true.mp h
          have hcr := hcross q hq (rc1, rc2) (List.mem_cons_self _ _)
          obtain ⟨n1, n2, n3, n4⟩ := hcr
          have hqv := hvalprev q hq
          rcases Bool.or_eq_true _ _ |>.mp hqb with hb | hb
          · exact n1 (letter_index_inj q.1 rc1 hqv.1 hv.1 (beq_iff_eq.mp hb))
          · exact n3 (letter_index_inj q.2 rc1 hqv.2 hv.1 (beq_iff_eq.mp hb))
        · obtain ⟨q, hq, hqb⟩ := List.any_eq_true.mp h
          have hcr := hcross q hq (rc1, rc2) (List.mem_cons_self _ _)
          obtain ⟨n1, n2, n3, n4⟩ := hcr
          have hqv := hvalprev q hq
          rcases Bool.or_eq_true _ _ |>.mp hqb with hb | hb
          · exact n2 (letter_index_inj q.1 rc2 hqv.1 hv.2 (beq_iff_eq.mp hb))
          · exact n4 (letter_index_inj q.2 rc2 hqv.2 hv.2 (beq_iff_eq.mp hb))
      · have hor : (seenOf prev (rc1 - 65) || seenOf prev (rc2 - 65)) = false := by
          rcases Bool.eq_false_or_eq_true
              (seenOf prev (rc1 - 65) || seenOf prev (rc2 - 65)) with h | h
          · exact absurd h hseen
          · exact h
        have h1 : seenOf prev (rc1 - 65) = false := by
          rcases Bool.or_eq_false_iff.mp hor with ⟨x, _⟩
          exact x
        have h2 : seenOf prev (rc2 - 65) = false := by
          rcases Bool.or_eq_false_iff.mp hor with ⟨_, y⟩
          exact y
        rw [if_neg hseen]
        rw [seenOf_append_pair prev rc1 rc2]
        have hval' : ∀ q ∈ prev ++ [(rc1, rc2)], PairValid q := by
          intro q hq
          rcases List.mem_append.mp hq with h | h
          · exact hvalprev q h
          · rw [List.mem_singleton.mp h]
            exact hv
        have hdisj' : (prev ++ [(rc1, rc2)]).Pairwise PairDisjoint := by
          rw [List.pairwise_append]
          refine ⟨hdisjprev, List.pairwise_singleton _ _, ?_⟩
          intro q hq r hr
          rw [List.mem_singleton.mp hr]
          have hq1 := List.any_eq_false.mp h1 q hq
          have hq2 := List.any_eq_false.mp h2 q hq
          simp only [Bool.or_eq_true, not_or, beq_iff_eq] at hq1 hq2
          refine ⟨?_, ?_, ?_, ?_⟩
          · exact fun e => hq1.1 (by rw [e])
          · exact fun e => hq2.1 (by rw [e])
          · exact fun e => hq1.2 (by rw [e])
          · exact fun e => hq2.2 (by rw [e])
        rw [ih (prev ++ [(rc1, rc2)]) _ hval' hdisj']
        rw [List.append_assoc, List.singleton_append]
        constructor
        · rintro (⟨q, hq, hnv⟩ | hnp)
          · exact Or.inl ⟨q, List.mem_cons_of_mem _ hq, hnv⟩
          · exact Or.inr hnp
        · rintro (⟨q, hq, hnv⟩ | hnp)
          · rcases List.mem_cons.mp hq with hh | hq'
            · exact absurd (hh ▸ hv) hnv
            · exact Or.inl ⟨q, hq', hnv⟩
          · exact Or.inr hnp
    · have hcond : (isUpper rc1 && isUpper rc2) = false := by
        rcases Bool.eq_false_or_eq_true (isUpper rc1 && isUpper rc2) with h | h
        · exact absurd (Bool.and_eq_true _ _ |>.mp h) (by
            intro hh
            exact hv ⟨hh.1, hh.2⟩)
        · exact h
      simp only [Plugboard.decodeGo, hcond]
      rw [if_neg (by simp)]
      exact iff_of_true rfl
        (Or.inl ⟨(rc1, rc2), List.mem_cons_self _ _, hv⟩)

/-- `Plugboard::decode_plugboard` fails exactly when some pair holds a
non-uppercase character or some letter occurs in two pairs, and the
empty list gives the identity. -/
theorem decode_fails_iff_aux (pairs : List (Nat × Nat)) :
    (Plugboard.decode pairs = none ↔
      (∃ p ∈ pairs, ¬ PairValid p) ∨ ¬ pairs.Pairwise PairDisjoint) ∧
    Plugboard.decode [] = some Plugboard.identity := by
  constructor
  · unfold Plugboard.decode
    by_cases h : pairs = []
    · subst h
      simp
    · rw [if_neg h]
      rw [Option.map_eq_none']
      have hbase : (fun _ : Nat => false) = seenOf [] := by
        funext i
        simp [seenOf]
      rw [hbase]
      have := decodeGo_none_iff pairs [] Plugboard.identity
        (by intro p hp; simp at hp) List.Pairwise.nil
      simpa using this
  · rfl

theorem applyPairs_not_mem (pairs : List (Nat × Nat)) :
    ∀ (m : Nat → Nat) (i : Nat),
      (∀ p ∈ pairs, p.1 - 65 ≠ i ∧ p.2 - 65 ≠ i) →
      applyPairs m pairs i = m i := by
  induction pairs with
  | nil => intro m i _; rfl
  | cons p rest ih =>
    intro m i hni
    obtain ⟨h1, h2⟩ := hni p (List.mem_cons_self _ _)
    unfold applyPairs
    rw [ih _ _ (fun q hq => hni q (List.mem_cons_of_mem _ hq))]
    rw [Function.update_noteq (fun e => h2 e.symm),
      Function.update_noteq (fun e => h1 e.symm)]

theorem applyPairs_mem (pairs : List (Nat × Nat))
    (hval : ∀ p ∈ pairs, PairValid p)
    (hdisj : pairs.Pairwise PairDisjoint) :
    ∀ (m : Nat → Nat) (p : Nat × Nat), p ∈ pairs →
      applyPairs m pairs (p.1 - 65) = p.2 - 65 ∧
      applyPairs m pairs (p.2 - 65) = p.1 - 65 := by
  induction pairs with
  | nil => intro m p hp; simp at hp
  | cons q rest ih =>
    intro m p hp
    have hqv : PairValid q := hval q (List.mem_cons_self _ _)
    rcases List.mem_cons.mp hp with rfl | hp'
    · unfold applyPairs
      have hrest : ∀ r ∈ rest, r.1 - 65 ≠ p.2 - 65 ∧ r.2 - 65 ≠ p.2 - 65 := by
        intro r hr
        have hrv : PairValid r := hval r (List.mem_cons_of_mem _ hr)
        have hd := (List.pairwise_cons.mp hdisj).1 r hr
        exact ⟨fun e => hd.2.2.1 (letter_index_inj r.1 p.2 hrv.1 hqv.2 e).symm,
          fun e => hd.2.2.2 (letter_index_inj r.2 p.2 hrv.2 hqv.2 e).symm⟩
      have hrest1 : ∀ r ∈ rest, r.1 - 65 ≠ p.1 - 65 ∧ r.2 - 65 ≠ p.1 - 65 := by
        intro r hr
        have hrv : PairValid r := hval r (List.mem_cons_of_mem _ hr)
        have hd := (List.pairwise_cons.mp hdisj).1 r hr
        exact ⟨fun e => hd.1 (letter_index_inj r.1 p.1 hrv.1 hqv.1 e).symm,
          fun e => hd.2.1 (letter_index_inj r.2 p.1 hrv.2 hqv.1 e).symm⟩
      constructor
      · rw [applyPairs_not_mem rest _ _ hrest1]
        by_cases he : p.1 - 65 = p.2 - 65
        · rw [he, Function.update_same]
        · rw [Function.update_noteq he, Function.update_same]
      · rw [applyPairs_not_mem rest _ _ hrest]
        rw [Function.update_same]
    · exact ih (fun r hr => hval r (List.mem_cons_of_mem _ hr))
        (List.pairwise_cons.mp hdisj).2 _ p hp'

/-- C7: plugboard construction fails (panics) if and only if some pair
contains a non-uppercase-ASCII character or some letter appears in more
than one pair; the empty pair list succeeds with the identity
permutation. -/
theorem plugboard_decode_fails_iff (pairs : List (Nat × Nat)) :
    (Plugboard.decode pairs = none ↔
      (∃ p ∈ pairs, ¬ PairValid p) ∨ ¬ pairs.Pairwise PairDisjoint) ∧
    Plugboard.decode [] = some Plugboard.identity :=
  decode_fails_iff_aux pairs

/-- A successful decode means every pair was valid and mutually disjoint,
and the wiring is the pairs' updates applied to the identity. -/
theorem decode_some_spec (pairs : List (Nat × Nat)) (w : Nat → Nat)
    (h : Plugboard.decode pairs = some w) :
    (∀ p ∈ pairs, PairValid p) ∧ pairs.Pairwise PairDisjoint ∧
    w = applyPairs Plugboard.identity pairs := by
  have hnn : ¬(Plugboard.decode pairs = none) := by
    rw [h]
    simp
  rw [decode_fails_iff_aux pairs |>.1] at hnn
  push_neg at hnn
  obtain ⟨hval', hdisj'⟩ := hnn
  refine ⟨hval', hdisj', ?_⟩
  unfold Plugboard.decode at h
  by_cases hp : pairs = []
  · subst hp
    rw [if_pos rfl] at h
    simp only [Option.some_inj] at h
    rw [← h]
    rfl
  · rw [if_neg hp] at h
    rw [decodeGo_eq pairs _ _ hval' (fun p _ => ⟨rfl, rfl⟩) hdisj'] at h
    simp only [Option.map_some', Option.some_inj] at h
    exact h.symm

/-- Every wiring produced by `Plugboard::decode_plugboard` is a bounded
involution on the letters and the identity beyond them. -/
theorem decode_good (pairs : List (Nat × Nat)) (w : Nat → Nat)
    (h : Plugboard.decode pairs = some w) : PlugboardGood w := by
  obtain ⟨hval, hdisj, rfl⟩ := decode_some_spec pairs w h
  refine ⟨?_, ?_, ?_⟩
  · intro i
    by_cases hm : ∃ p ∈ pairs, p.1 - 65 = i.val ∨ p.2 - 65 = i.val
    · obtain ⟨p, hp, hc⟩ := hm
      have hpv := hval p hp
      have hap := applyPairs_mem pairs hval hdisj Plugboard.identity p hp
      have hb1 : isUpper p.1 = true := hpv.1
      have hb2 : isUpper p.2 = true := hpv.2
      simp only [isUpper, Bool.and_eq_true, decide_eq_true_eq] at hb1 hb2
      rcases hc with hc | hc
      · rw [← hc, hap.1]
        omega
      · rw [← hc, hap.2]
        omega
    · push_neg at hm
      rw [applyPairs_not_mem pairs _ _ hm]
      exact i.isLt
  · intro i
    by_cases hm : ∃ p ∈ pairs, p.1 - 65 = i.val ∨ p.2 - 65 = i.val
    · obtain ⟨p, hp, hc⟩ := hm
      have hap := applyPairs_mem pairs hval hdisj Plugboard.identity p hp
      rcases hc with hc | hc
      · rw [← hc, hap.1, hap.2, hc]
      · rw [← hc, hap.2, hap.1, hc]
    · push_neg at hm
      rw [applyPairs_not_mem pairs _ _ hm]
      simp only [Plugboard.identity]
      rw [applyPairs_not_mem pairs _ _ hm]
      rfl
  · intro i hi
    have hm : ∀ p ∈ pairs, p.1 - 65 ≠ i ∧ p.2 - 65 ≠ i := by
      intro p hp
      have hpv := hval p hp
      have hb1 : isUpper p.1 = true := hpv.1
      have hb2 : isUpper p.2 = true := hpv.2
      simp only [isUpper, Bool.and_eq_true, decide_eq_true_eq] at hb1 hb2
      omega
    rw [applyPairs_not_mem pairs _ _ hm]
    rfl

/-- Invariant of the `generate_connections` walk over `0..n`: a letter is
marked seen when its pair has been emitted, and the output lists each
two-cycle once, keyed by its smaller letter, in increasing order. -/
theorem genConn_fold (w : Nat → Nat) (hg : PlugboardGood w) :
    ∀ n, n ≤ 26 →
      (List.range n).foldl
        (fun (st : (Nat → Bool) × List (Nat × Nat)) idx =>
          if w idx == idx || st.1 idx then st
          else
            (Function.update (Function.update st.1 idx true) (w idx) true,
             st.2 ++ [(idx + 65, w idx + 65)]))
        (fun _ => false, []) =
      (fun j => decide ((w j ≠ j) ∧ (j < n ∨ w j < n)),
       ((List.range n).filter (fun i => decide (i < w i))).map
         (fun i => (i + 65, w i + 65))) := by
  intro n
  induction n with
  | zero =>
    intro _
    refine Prod.ext ?_ rfl
    funext j
    simp
  | succ n ih =>
    intro hle
    have hn26 : n < 26 := by omega
    have hback : ∀ j, w j = n → j = w n := by
      intro j hj
      by_cases hj26 : j < 26
      · have hi := hg.2.1 ⟨j, hj26⟩
        rw [hj] at hi
        exact hi.symm
      · have hi := hg.2.2 j (by omega)
        rw [hi] at hj
        omega
    rw [List.range_succ, List.foldl_append, ih (by omega)]
    simp only [List.foldl_cons, List.foldl_nil]
    rw [List.filter_append, List.map_append]
    simp only [List.filter_cons, List.filter_nil]
    by_cases hskip : n < w n
    · -- emit branch
      rw [if_neg (by simp; omega)]
      have hfilt : decide (n < w n) = true := by simp [hskip]
      rw [hfilt]
      simp only [if_true, List.map_cons, List.map_nil]
      refine Prod.ext ?_ rfl
      funext j
      simp only []
      have hwwn : w (w n) = n := hg.2.1 ⟨n, hn26⟩
      by_cases hj1 : j = w n
      · subst hj1
        rw [Function.update_same]
        rw [eq_comm, decide_eq_true_iff]
        refine ⟨by omega, by omega⟩
      · rw [Function.update_noteq hj1]
        by_cases hj2 : j = n
        · subst hj2
          rw [Function.update_same]
          rw [eq_comm, decide_eq_true_iff]
          refine ⟨by omega, by omega⟩
        · rw [Function.update_noteq hj2, decide_eq_decide]
          by_cases hwj : w j = n
          · exact absurd (hback j hwj) hj1
          · omega
    · -- skip branch: w n ≤ n, either self-mapped or already seen
      rw [if_pos (by simp; omega)]
      have hfilt : decide (n < w n) = false := by simp; omega
      rw [hfilt]
      simp only [Bool.false_eq_true, if_false, List.map_nil, List.append_nil]
      refine Prod.ext ?_ rfl
      funext j
      simp only []
      rw [decide_eq_decide]
      by_cases hwj : w j = n
      · have hjwn := hback j hwj
        subst hjwn
        have hwwn : w (w n) = n := hg.2.1 ⟨n, hn26⟩
        rw [hwwn]
        omega
      · by_cases hj : j = n
        · subst hj
          omega
        · omega

/-- `Plugboard::generate_connections` emits exactly the pairs
`(i, w i)` with `i < w i`, as characters, in increasing order of `i`:
each connected pair once, self-mapped letters omitted. -/
theorem generateConnections_eq (w : Nat → Nat) (hg : PlugboardGood w) :
    Plugboard.generateConnections w =
      ((List.range 26).filter (fun i => decide (i < w i))).map
        (fun i => (i + 65, w i + 65)) := by
  unfold Plugboard.generateConnections
  rw [genConn_fold w hg 26 (le_refl 26)]

/-- The emitted connections are valid character pairs. -/
theorem genConnList_valid (w : Nat → Nat) (hg : PlugboardGood w) :
    ∀ p ∈ ((List.range 26).filter (fun i => decide (i < w i))).map
      (fun i => (i + 65, w i + 65)), PairValid p := by
  intro p hp
  obtain ⟨a, ha, rfl⟩ := List.mem_map.mp hp
  have ha26 := List.mem_range.mp (List.mem_filter.mp ha).1
  have hwa : w a < 26 := hg.1 ⟨a, ha26⟩
  constructor
  · simp only [isUpper, Bool.and_eq_true, decide_eq_true_eq]
    omega
  · simp only [isUpper, Bool.and_eq_true, decide_eq_true_eq]
    omega

/-- The emitted connections are mutually letter-disjoint. -/
theorem genConnList_disjoint (w : Nat → Nat) (hg : PlugboardGood w) :
    (((List.range 26).filter (fun i => decide (i < w i))).map
      (fun i => (i + 65, w i + 65))).Pairwise PairDisjoint := by
  rw [List.pairwise_map]
  have hfilt : ((List.range 26).filter
      (fun i => decide (i < w i))).Pairwise (· < ·) :=
    (List.pairwise_lt_range 26).sublist (List.filter_sublist _)
  refine hfilt.imp_of_mem ?_
  intro a b ha hb hab
  have ha26 := List.mem_range.mp (List.mem_filter.mp ha).1
  have hb26 := List.mem_range.mp (List.mem_filter.mp hb).1
  have halt : a < w a := by simpa using (List.mem_filter.mp ha).2
  have hblt : b < w b := by simpa using (List.mem_filter.mp hb).2
  have hwa : w (w a) = a := hg.2.1 ⟨a, ha26⟩
  have hwb : w (w b) = b := hg.2.1 ⟨b, hb26⟩
  refine ⟨by omega, ?_, ?_, ?_⟩
  · intro h
    have h1 : a = w b := by omega
    have h2 : w a = b := by rw [h1, hwb]
    omega
  · intro h
    have h1 : w a = b := by omega
    have h2 : a = w b := by rw [← h1, hwa]
    omega
  · intro h
    have h1 : w a = w b := by omega
    have h2 : a = b := by rw [← hwa, h1, hwb]
    omega

/-- Re-decoding the emitted connections rebuilds the original wiring. -/
theorem applyPairs_genConn (w : Nat → Nat) (hg : PlugboardGood w) :
    applyPairs Plugboard.identity
      (((List.range 26).filter (fun i => decide (i < w i))).map
        (fun i => (i + 65, w i + 65))) = w := by
  have hval := genConnList_valid w hg
  have hdisj := genConnList_disjoint w hg
  funext i
  by_cases hi : i < 26
  · have hwwi : w (w i) = i := hg.2.1 ⟨i, hi⟩
    have hwi26 : w i < 26 := hg.1 ⟨i, hi⟩
    rcases Nat.lt_trichotomy i (w i) with hlt | heq | hgt
    · have hp : (i + 65, w i + 65) ∈ ((List.range 26).filter
          (fun i => decide (i < w i))).map (fun i => (i + 65, w i + 65)) :=
        List.mem_map_of_mem _
          (List.mem_filter.mpr ⟨List.mem_range.mpr hi, by simp [hlt]⟩)
      have := (applyPairs_mem _ hval hdisj Plugboard.identity _ hp).1
      simp only [Nat.add_sub_cancel] at this
      exact this
    · rw [applyPairs_not_mem]
      · exact heq ▸ rfl
      · intro p hp
        obtain ⟨a, ha, rfl⟩ := List.mem_map.mp hp
        have ha26 := List.mem_range.mp (List.mem_filter.mp ha).1
        have halt : a < w a := by simpa using (List.mem_filter.mp ha).2
        have hwa : w (w a) = a := hg.2.1 ⟨a, ha26⟩
        simp only [Nat.add_sub_cancel]
        constructor
        · intro h
          rw [h] at halt
          omega
        · intro h
          have h2 : a = w i := by rw [← hwa, h]
          rw [← heq] at h2
          subst h2
          omega
    · have hp : (w i + 65, i + 65) ∈ ((List.range 26).filter
          (fun i => decide (i < w i))).map (fun i => (i + 65, w i + 65)) := by
        have hwlt : w i < w (w i) := by rw [hwwi]; exact hgt
        have hmf : w i ∈ (List.range 26).filter (fun i => decide (i < w i)) :=
          List.mem_filter.mpr ⟨List.mem_range.mpr hwi26, decide_eq_true hwlt⟩
        have hm := List.mem_map_of_mem (fun i => (i + 65, w i + 65)) hmf
        simp only [] at hm
        rw [hwwi] at hm
        exact hm
      have := (applyPairs_mem _ hval hdisj Plugboard.identity _ hp).2
      simp only [Nat.add_sub_cancel] at this
      exact this
  · rw [applyPairs_not_mem]
    · exact (hg.2.2 i (by omega)).symm
    · intro p hp
      obtain ⟨a, ha, rfl⟩ := List.mem_map.mp hp
      have ha26 := List.mem_range.mp (List.mem_filter.mp ha).1
      have hwa26 : w a < 26 := hg.1 ⟨a, ha26⟩
      simp only [Nat.add_sub_cancel]
      omega

/-- Round trip: decoding `generate_connections` of a good wiring yields
that wiring. -/
theorem decode_genConn (w : Nat → Nat) (hg : PlugboardGood w) :
    Plugboard.decode (Plugboard.generateConnections w) = some w := by
  rw [generateConnections_eq w hg]
  unfold Plugboard.decode
  by_cases hnil : ((List.range 26).filter (fun i => decide (i < w i))).map
      (fun i => (i + 65, w i + 65)) = []
  · rw [if_pos hnil]
    have hfe : (List.range 26).filter (fun i => decide (i < w i)) = [] :=
      List.map_eq_nil_iff.mp hnil
    have hall := List.filter_eq_nil_iff.mp hfe
    refine congrArg some ?_
    funext i
    show i = w i
    by_cases hi : i < 26
    · rcases Nat.lt_trichotomy i (w i) with hlt | heq | hgt
      · exact absurd (decide_eq_true hlt)
          (by simpa using hall i (List.mem_range.mpr hi))
      · exact heq
      · have hwwi : w (w i) = i := hg.2.1 ⟨i, hi⟩
        have hwi26 : w i < 26 := hg.1 ⟨i, hi⟩
        have hlt2 : w i < w (w i) := by rw [hwwi]; exact hgt
        exact absurd (decide_eq_true hlt2)
          (by simpa using hall (w i) (List.mem_range.mpr hwi26))
    · exact (hg.2.2 i (by omega)).symm
  · rw [if_neg hnil]
    rw [decodeGo_eq _ _ _ (genConnList_valid w hg) (fun p _ => ⟨rfl, rfl⟩)
      (genConnList_disjoint w hg)]
    simp only [Option.map_some']
    exact congrArg some (applyPairs_genConn w hg)

/-- C8: for every pair list accepted by plugboard construction, reading
the wiring back with `generate_connections` and decoding again yields an
identical wiring; `generate_connections` emits each connected pair
exactly once (at its smaller letter) and omits self-mapped letters. -/
theorem plugboard_roundtrip (pairs : List (Nat × Nat)) (w : Nat → Nat)
    (h : Plugboard.decode pairs = some w) :
    Plugboard.decode (Plugboard.generateConnections w) = some w ∧
    Plugboard.generateConnections w =
      ((List.range 26).filter (fun i => decide (i < w i))).map
        (fun i => (i + 65, w i + 65)) :=
  ⟨decode_genConn w (decode_good pairs w h),
    generateConnections_eq w (decode_good pairs w h)⟩

/-- Witness for `plugboard_roundtrip` at a concrete pair list. -/
theorem plugboard_roundtrip_witness :
    Plugboard.decode [(65, 66)] = some (Plugboard.new [(65, 66)]) ∧
    (Plugboard.decode (Plugboard.generateConnections (Plugboard.new [(65, 66)])) =
        some (Plugboard.new [(65, 66)]) ∧
      Plugboard.generateConnections (Plugboard.new [(65, 66)]) =
        ((List.range 26).filter
          (fun i => decide (i < Plugboard.new [(65, 66)] i))).map
          (fun i => (i + 65, Plugboard.new [(65, 66)] i + 65))) := by
  have h : Plugboard.decode [(65, 66)] = some (Plugboard.new [(65, 66)]) := by
    unfold Plugboard.new
    rfl
  exact ⟨h, plugboard_roundtrip [(65, 66)] (Plugboard.new [(65, 66)]) h⟩

/-- C4, counterexample to the claim as stated: with `max_plugs = 0` the
committed set stays empty, but `find_plugs` returns the input key with
its original plugboard (here an A-B plug), not the empty committed set's
identity plugboard. -/
theorem findPlugs_claim_cex :
    (findPlugs [65] cexKey 0 (fun _ => 0)).1.plugboard 0 = 1 ∧
    (findPlugsClaim [65] cexKey 0 (fun _ => 0)).1.plugboard 0 = 0 ∧
    (findPlugs [65] cexKey 0 (fun _ => 0)).1.plugboard ≠
      (findPlugsClaim [65] cexKey 0 (fun _ => 0)).1.plugboard := by
  refine ⟨rfl, rfl, fun h => ?_⟩
  have h0 := congrFun h 0
  rw [show (findPlugs [65] cexKey 0 (fun _ => 0)).1.plugboard 0 = 1 from rfl,
    show (findPlugsClaim [65] cexKey 0 (fun _ => 0)).1.plugboard 0 = 0 from
      rfl] at h0
  exact absurd h0 (by norm_num)

/-- The strict-improvement fold either keeps its initial value or
returns a scored element of the list. -/
theorem bestFold_cases (g : (Nat × Nat) → Rat) (l : List (Nat × Nat)) :
    ∀ init : Rat × (Nat × Nat),
      l.foldl (fun best p => if best.1 < g p then (g p, p) else best) init =
          init ∨
      ∃ p ∈ l,
        l.foldl (fun best p => if best.1 < g p then (g p, p) else best) init =
          (g p, p) := by
  induction l with
  | nil => intro init; exact Or.inl rfl
  | cons x rest ih =>
    intro init
    simp only [List.foldl_cons]
    by_cases hx : init.1 < g x
    · rw [if_pos hx]
      rcases ih (g x, x) with h | ⟨p, hp, h⟩
      · exact Or.inr ⟨x, List.mem_cons_self _ _, h⟩
      · exact Or.inr ⟨p, List.mem_cons_of_mem _ hp, h⟩
    · rw [if_neg hx]
      rcases ih init with h | ⟨p, hp, h⟩
      · exact Or.inl h
      · exact Or.inr ⟨p, List.mem_cons_of_mem _ hp, h⟩

/-- When every candidate strictly beats the initial score, the fold
returns some candidate together with its own score. -/
theorem bestFold_fst_lt (g : (Nat × Nat) → Rat) (l : List (Nat × Nat)) :
    ∀ init : Rat × (Nat × Nat), (∀ p ∈ l, init.1 < g p) → l ≠ [] →
      ∃ p ∈ l,
        l.foldl (fun best p => if best.1 < g p then (g p, p) else best) init =
          (g p, p) := by
  intro init hinit hne
  rcases bestFold_cases g l init with h | h
  · cases l with
    | nil => exact absurd rfl hne
    | cons x rest =>
      exfalso
      simp only [List.foldl_cons, if_pos (hinit x (List.mem_cons_self _ _))] at h
      rcases bestFold_cases g rest (g x, x) with h2 | ⟨p, hp, h2⟩
      · rw [h2] at h
        have hx : init.1 < g x := hinit x (List.mem_cons_self _ _)
        rw [← h] at hx
        exact lt_irrefl _ hx
      · rw [h2] at h
        have hx : init.1 < g p := hinit p (List.mem_cons_of_mem _ hp)
        rw [← h] at hx
        exact lt_irrefl _ hx
  · exact h

/-- Shape of a `find_plug` candidate: indices `i < j` of two currently
unplugged letters. -/
theorem findPlugCandidates_mem (w : Nat → Nat) (p : Nat × Nat)
    (hp : p ∈ findPlugCandidates w) :
    ∃ i j : Nat, i < j ∧ i < 26 ∧ j < 26 ∧
      Plugboard.unplugged w i = true ∧ Plugboard.unplugged w j = true ∧
      p = (i + 65, j + 65) := by
  unfold findPlugCandidates at hp
  obtain ⟨i, hi, hp2⟩ := List.mem_flatMap.mp hp
  obtain ⟨j, hj, rfl⟩ := List.mem_map.mp hp2
  have hi' := List.mem_filter.mp hi
  have hj' := List.mem_filter.mp hj
  have hij := List.mem_filter.mp hj'.1
  exact ⟨i, j, by simpa using hj'.2, List.mem_range.mp hi'.1,
    List.mem_range.mp hij.1, hi'.2, hij.2, rfl⟩

/-- `find_plug` either finds nothing (no candidates, sentinel result) or
returns some candidate pair with the score of the full decryption under
the current connections extended by that pair. -/
theorem findPlug_spec (key : EnigmaKey) (cipher : List Nat) (f : FitnessFn)
    (hf : ∀ t, sentinel < f t) :
    (findPlugCandidates key.plugboard = [] ∧
      findPlug key cipher f = (sentinel, (65, 65))) ∨
    ∃ p ∈ findPlugCandidates key.plugboard,
      findPlug key cipher f =
        (f (decryptWith
          (key.setPlugboard (Plugboard.new
            (Plugboard.generateConnections key.plugboard ++ [p]))) cipher), p) := by
  by_cases hne : findPlugCandidates key.plugboard = []
  · refine Or.inl ⟨hne, ?_⟩
    unfold findPlug
    rw [hne]
    rfl
  · refine Or.inr ?_
    have := bestFold_fst_lt
      (fun p => f (decryptWith
        (key.setPlugboard (Plugboard.new
          (Plugboard.generateConnections key.plugboard ++ [p]))) cipher))
      (findPlugCandidates key.plugboard) (sentinel, (65, 65))
      (fun p _ => hf _) hne
    obtain ⟨p, hp, hfold⟩ := this
    exact ⟨p, hp, hfold⟩

/-- The mapping updates of an appended pair list compose. -/
theorem applyPairs_append (l1 l2 : List (Nat × Nat)) :
    ∀ m, applyPairs m (l1 ++ l2) = applyPairs (applyPairs m l1) l2 := by
  induction l1 with
  | nil => intro m; rfl
  | cons p rest ih =>
    intro m
    show applyPairs
        (Function.update (Function.update m (p.1 - 65) (p.2 - 65))
          (p.2 - 65) (p.1 - 65)) (rest ++ l2) =
      applyPairs (applyPairs
        (Function.update (Function.update m (p.1 - 65) (p.2 - 65))
          (p.2 - 65) (p.1 - 65)) rest) l2
    exact ih _

/-- Valid disjoint pairs always decode, to their updates over the
identity. -/
theorem decode_success (pairs : List (Nat × Nat))
    (hval : ∀ p ∈ pairs, PairValid p) (hdisj : pairs.Pairwise PairDisjoint) :
    Plugboard.decode pairs = some (applyPairs Plugboard.identity pairs) := by
  unfold Plugboard.decode
  by_cases hnil : pairs = []
  · subst hnil
    rw [if_pos rfl]
    rfl
  · rw [if_neg hnil]
    rw [decodeGo_eq pairs _ _ hval (fun p _ => ⟨rfl, rfl⟩) hdisj]
    rfl

/-- Strict pairs are valid pairs. -/
theorem strictPair_valid (p : Nat × Nat) (h : StrictPair p) : PairValid p := by
  obtain ⟨h1, h2, h3⟩ := h
  constructor
  · simp only [isUpper, Bool.and_eq_true, decide_eq_true_eq]
    omega
  · simp only [isUpper, Bool.and_eq_true, decide_eq_true_eq]
    omega

/-- `Plugboard::new` on a committed list is the pairs' updates. -/
theorem new_eq_applyPairs (l : List (Nat × Nat)) (hok : CommittedOK l) :
    Plugboard.new l = applyPairs Plugboard.identity l := by
  unfold Plugboard.new
  rw [decode_success l (fun p hp => strictPair_valid p (hok.1 p hp)) hok.2]
  rfl

/-- On a committed list, decode returns exactly `Plugboard::new`. -/
theorem decode_eq_new (l : List (Nat × Nat)) (hok : CommittedOK l) :
    Plugboard.decode l = some (Plugboard.new l) := by
  rw [new_eq_applyPairs l hok]
  exact decode_success l (fun p hp => strictPair_valid p (hok.1 p hp)) hok.2

/-- Letters of a committed pair map to each other in the built wiring. -/
theorem committed_letters (l : List (Nat × Nat)) (hok : CommittedOK l) :
    ∀ q ∈ l, Plugboard.new l (q.1 - 65) = q.2 - 65 ∧
      Plugboard.new l (q.2 - 65) = q.1 - 65 := by
  intro q hq
  rw [new_eq_applyPairs l hok]
  exact applyPairs_mem l (fun p hp => strictPair_valid p (hok.1 p hp)) hok.2
    Plugboard.identity q hq

/-- A pair of currently unplugged letters shares no letter with any
committed pair. -/
theorem cross_disjoint (l : List (Nat × Nat)) (hok : CommittedOK l)
    (i j : Nat) (hij : i < j) (hj26 : j < 26)
    (hui : Plugboard.unplugged (Plugboard.new l) i = true)
    (huj : Plugboard.unplugged (Plugboard.new l) j = true) :
    ∀ q ∈ l, PairDisjoint q (i + 65, j + 65) := by
  intro q hq
  obtain ⟨hs1, hs2, hs3⟩ := hok.1 q hq
  obtain ⟨hq1, hq2⟩ := committed_letters l hok q hq
  have hwi : Plugboard.new l i = i := by
    simpa [Plugboard.unplugged] using hui
  have hwj : Plugboard.new l j = j := by
    simpa [Plugboard.unplugged] using huj
  refine ⟨?_, ?_, ?_, ?_⟩
  · intro h
    have he : q.1 - 65 = i := by omega
    rw [he] at hq1
    rw [hwi] at hq1
    omega
  · intro h
    have he : q.1 - 65 = j := by omega
    rw [he] at hq1
    rw [hwj] at hq1
    omega
  · intro h
    have he : q.2 - 65 = i := by omega
    rw [he] at hq2
    rw [hwi] at hq2
    omega
  · intro h
    have he : q.2 - 65 = j := by omega
    rw [he] at hq2
    rw [hwj] at hq2
    omega

/-- Committing a fresh unplugged pair keeps the committed list well
formed. -/
theorem committedOK_append (l : List (Nat × Nat)) (hok : CommittedOK l)
    (i j : Nat) (hij : i < j) (hj26 : j < 26)
    (hui : Plugboard.unplugged (Plugboard.new l) i = true)
    (huj : Plugboard.unplugged (Plugboard.new l) j = true) :
    CommittedOK (l ++ [(i + 65, j + 65)]) := by
  constructor
  · intro p hp
    rcases List.mem_append.mp hp with h | h
    · exact hok.1 p h
    · rw [List.mem_singleton.mp h]
      exact ⟨by omega, by omega, by omega⟩
  · rw [List.pairwise_append]
    refine ⟨hok.2, List.pairwise_singleton _ _, ?_⟩
    intro q hq r hr
    rw [List.mem_singleton.mp hr]
    exact cross_disjoint l hok i j hij hj26 hui huj q hq

/-- The regenerated connection list of a good wiring is itself a well
formed committed list. -/
theorem genConn_committedOK (w : Nat → Nat) (hg : PlugboardGood w) :
    CommittedOK (Plugboard.generateConnections w) := by
  constructor
  · intro q hq
    rw [generateConnections_eq w hg] at hq
    obtain ⟨a, ha, rfl⟩ := List.mem_map.mp hq
    have ha26 := List.mem_range.mp (List.mem_filter.mp ha).1
    have halt : a < w a := by simpa using (List.mem_filter.mp ha).2
    have hwa : w a < 26 := hg.1 ⟨a, ha26⟩
    exact ⟨by omega, by omega, by omega⟩
  · rw [generateConnections_eq w hg]
    exact genConnList_disjoint w hg

/-- Extending the regenerated connections by a fresh pair builds the same
wiring as extending the committed list itself: the key wiring-stability
fact behind `find_plugs`' use of `generate_connections`. -/
theorem new_append_plug (l : List (Nat × Nat)) (hok : CommittedOK l)
    (i j : Nat) (hij : i < j) (hj26 : j < 26)
    (hui : Plugboard.unplugged (Plugboard.new l) i = true)
    (huj : Plugboard.unplugged (Plugboard.new l) j = true) :
    Plugboard.new
        (Plugboard.generateConnections (Plugboard.new l) ++ [(i + 65, j + 65)]) =
      Plugboard.new (l ++ [(i + 65, j + 65)]) := by
  have hdec := decode_eq_new l hok
  have hgood := decode_good l _ hdec
  set w := Plugboard.new l with hw
  have hG : Plugboard.decode (Plugboard.generateConnections w) = some w :=
    decode_genConn w hgood
  have hGok : CommittedOK (Plugboard.generateConnections w) :=
    genConn_committedOK w hgood
  have hGnew : Plugboard.new (Plugboard.generateConnections w) = w := by
    unfold Plugboard.new
    rw [hG]
    rfl
  have hGeq : applyPairs Plugboard.identity
      (Plugboard.generateConnections w) = w := by
    rw [← new_eq_applyPairs _ hGok]
    exact hGnew
  have hLeq : applyPairs Plugboard.identity l = w :=
    (new_eq_applyPairs l hok).symm
  have hokL := committedOK_append l hok i j hij hj26 hui huj
  have hokG := committedOK_append (Plugboard.generateConnections w) hGok i j
    hij hj26 (by rw [hGnew]; exact hui) (by rw [hGnew]; exact huj)
  rw [new_eq_applyPairs _ hokG, new_eq_applyPairs _ hokL]
  rw [applyPairs_append, applyPairs_append]
  rw [hGeq, hLeq]

/-- Keys agreeing on their rotors agree after `set_plugboard`. -/
theorem setPlugboard_congr (k1 k2 : EnigmaKey)
    (h1 : k1.leftRotor = k2.leftRotor) (h2 : k1.middleRotor = k2.middleRotor)
    (h3 : k1.rightRotor = k2.rightRotor) (p : Nat → Nat) :
    k1.setPlugboard p = k2.setPlugboard p := by
  cases k1
  cases k2
  simp_all [EnigmaKey.setPlugboard]

/-- From any committed state onwards, the `find_plugs` loop equals the
amended claim-side loop: the code's `max_fitness` is exactly the score
achieved by the current committed set. -/
theorem findPlugsGo_eq_amended (cipher : List Nat) (f : FitnessFn)
    (hf : ∀ t, sentinel < f t) :
    ∀ (n : Nat) (keyMut key : EnigmaKey) (committed : List (Nat × Nat)),
      keyMut.leftRotor = key.leftRotor →
      keyMut.middleRotor = key.middleRotor →
      keyMut.rightRotor = key.rightRotor →
      CommittedOK committed → committed ≠ [] →
      findPlugsGo cipher f n keyMut committed
          (f (decryptWith (key.setPlugboard (Plugboard.new committed)) cipher))
          (key.setPlugboard (Plugboard.new committed)) =
        findPlugsAmendedGo cipher f n key committed := by
  intro n
  induction n with
  | zero =>
    intro keyMut key committed _ _ _ _ _
    rfl
  | succ n ih =>
    intro keyMut key committed h1 h2 h3 hok hne
    have hcur : keyMut.setPlugboard (Plugboard.new committed) =
        key.setPlugboard (Plugboard.new committed) :=
      setPlugboard_congr _ _ h1 h2 h3 _
    have hempty : committed.isEmpty = false := by
      cases committed
      · exact absurd rfl hne
      · rfl
    simp only [findPlugsGo, findPlugsAmendedGo, hcur, hempty,
      Bool.false_eq_true, if_false]
    set cur := key.setPlugboard (Plugboard.new committed) with hcurdef
    by_cases hstop : (findPlug cur cipher f).1 < f (decryptWith cur cipher)
    · rw [if_pos hstop, if_pos hstop]
    · rw [if_neg hstop, if_neg hstop]
      rcases findPlug_spec cur cipher f hf with ⟨hcand, hfp⟩ | ⟨p, hp, hfp⟩
      · rw [hfp] at hstop
        exact absurd (hf _) hstop
      · obtain ⟨i, j, hij, hi26, hj26, hui, huj, rfl⟩ :=
          findPlugCandidates_mem _ _ hp
        have hcp : cur.plugboard = Plugboard.new committed := rfl
        have hok' : CommittedOK (committed ++ [(i + 65, j + 65)]) :=
          committedOK_append committed hok i j hij hj26 (hcp ▸ hui) (hcp ▸ huj)
        have hkey : ∀ P, cur.setPlugboard P = key.setPlugboard P :=
          fun P => setPlugboard_congr cur key rfl rfl rfl P
        have hwiring' : cur.setPlugboard
            (Plugboard.new (Plugboard.generateConnections cur.plugboard ++
              [(i + 65, j + 65)])) =
            key.setPlugboard
              (Plugboard.new (committed ++ [(i + 65, j + 65)])) := by
          rw [hcp, new_append_plug committed hok i j hij hj26
            (hcp ▸ hui) (hcp ▸ huj), hkey]
        have hscore : (findPlug cur cipher f).1 =
            f (decryptWith (key.setPlugboard
              (Plugboard.new (committed ++ [(i + 65, j + 65)]))) cipher) := by
          rw [hfp]
          show f (decryptWith (cur.setPlugboard
            (Plugboard.new (Plugboard.generateConnections cur.plugboard ++
              [(i + 65, j + 65)]))) cipher) = _
          rw [hwiring']
        have hplug2 : (findPlug cur cipher f).2 = (i + 65, j + 65) := by
          rw [hfp]
        rw [hscore, hplug2]
        rw [setPlugboard_congr cur key rfl rfl rfl
          (Plugboard.new (committed ++ [(i + 65, j + 65)]))]
        exact ih cur key _ rfl rfl rfl hok' (by simp)

/-- With no plugs committed, every letter is unplugged and candidates
exist. -/
theorem candidates_of_empty_ne_nil :
    findPlugCandidates (Plugboard.new []) ≠ [] := by decide

/-- C4, amended: `find_plugs` equals the claim-side greedy loop in which
each iteration selects the best-scoring additional pair of unplugged
letters and stops without committing when that best score is strictly
worse than the score achieved by the previously committed set - except
that the first iteration's reference score is the `-1e30` sentinel (so
the first best pair is always committed), and `max_plugs = 0` returns
the input key unchanged; the returned plugboard is the last committed
set, and committed plugs are never removed or swapped. -/
theorem findPlugs_matches_amended (cipher : List Nat) (key : EnigmaKey)
    (maxPlugs : Nat) (f : FitnessFn) (hf : ∀ t, sentinel < f t) :
    findPlugs cipher key maxPlugs f = findPlugsAmended cipher key maxPlugs f := by
  cases maxPlugs with
  | zero => rfl
  | succ m =>
    unfold findPlugs findPlugsAmended
    rw [if_neg (Nat.succ_ne_zero m)]
    have hkeys : findPlugsGo cipher f (m + 1) key [] sentinel key =
        findPlugsAmendedGo cipher f (m + 1) key [] := by
      simp only [findPlugsGo, findPlugsAmendedGo, List.isEmpty_nil, if_true,
        List.nil_append]
      set cur := key.setPlugboard (Plugboard.new []) with hcurdef
      rcases findPlug_spec cur cipher f hf with ⟨hcand, hfp⟩ | ⟨p, hp, hfp⟩
      · exact absurd hcand candidates_of_empty_ne_nil
      · have hstop : ¬((findPlug cur cipher f).1 < sentinel) := by
          rw [hfp]
          exact lt_asymm (hf _)
        rw [if_neg hstop, if_neg hstop]
        obtain ⟨i, j, hij, hi26, hj26, hui, huj, rfl⟩ :=
          findPlugCandidates_mem _ _ hp
        have hokE : CommittedOK ([] : List (Nat × Nat)) :=
          ⟨fun p hp => absurd hp (List.not_mem_nil p), List.Pairwise.nil⟩
        have hcp : cur.plugboard = Plugboard.new [] := rfl
        have hok' : CommittedOK [(i + 65, j + 65)] := by
          have h := committedOK_append [] hokE i j hij hj26 (hcp ▸ hui)
            (hcp ▸ huj)
          simpa using h
        have hkeyP : ∀ P, cur.setPlugboard P = key.setPlugboard P :=
          fun P => setPlugboard_congr cur key rfl rfl rfl P
        have hwiring' : cur.setPlugboard
            (Plugboard.new (Plugboard.generateConnections cur.plugboard ++
              [(i + 65, j + 65)])) =
            key.setPlugboard (Plugboard.new [(i + 65, j + 65)]) := by
          rw [hcp]
          have h := new_append_plug [] hokE i j hij hj26 (hcp ▸ hui)
            (hcp ▸ huj)
          simp only [List.nil_append] at h
          rw [h, hkeyP]
        have hscore : (findPlug cur cipher f).1 =
            f (decryptWith (key.setPlugboard
              (Plugboard.new [(i + 65, j + 65)])) cipher) := by
          rw [hfp]
          show f (decryptWith (cur.setPlugboard
            (Plugboard.new (Plugboard.generateConnections cur.plugboard ++
              [(i + 65, j + 65)]))) cipher) = _
          rw [hwiring']
        have hplug2 : (findPlug cur cipher f).2 = (i + 65, j + 65) := by
          rw [hfp]
        rw [hscore, hplug2]
        exact findPlugsGo_eq_amended cipher f hf m cur key [(i + 65, j + 65)]
          rfl rfl rfl hok' (by simp)
    rw [hkeys]

/-- Witness for `findPlugs_matches_amended` at a concrete input. -/
theorem findPlugs_matches_amended_witness :
    (∀ t : List Nat, sentinel < (fun _ => (0 : Rat)) t) ∧
    findPlugs [65] cexKey 1 (fun _ => 0) =
      findPlugsAmended [65] cexKey 1 (fun _ => 0) :=
  ⟨fun _ => by norm_num [sentinel],
    findPlugs_matches_amended [65] cexKey 1 (fun _ => 0)
      (fun _ => by norm_num [sentinel])⟩
